import Mathlib

/-!
Verification of the core of diff_test.py (Perceval-demos): the directory-tree
comparator (compare_files / count_unique / count_common / compare_dirs), the
commit-metrics cache (Metrics.compute_metrics / Metrics.compute_range), the
convergent range search (Metrics.min_range and the loop in
find_upstream_commit), and the best-match result assembly.

Shallow embedding conventions:
  * File trees are modelled by the inductive FTree: a regular file holds its
    list of lines; a directory holds a name-keyed list of child entries.
  * The line differ (difflib.ndiff, an external library) is modelled from the
    spec as a longest-common-subsequence line diff producing tagged lines.
  * Recursive functions over trees and the search loop are made total with an
    explicit fuel argument; fuel only needs to dominate the tree depth
    (resp. the initial step), which is proved or supplied where relevant.
  * The metrics dictionary self.metrics is modelled by its sorted key list
    (the cache) together with the pure function giving each commit's metrics;
    checkout plus comparison for a commit sequence number is deterministic,
    so the stored value for a key is always that function's value.
-/

/-- A node of a file tree: a regular file with its lines, or a directory
with its named children (names are unique in a real directory listing). -/
inductive FTree where
  | file : List String → FTree
  | dir : List (String × FTree) → FTree

/-- Names of the entries of a directory listing. -/
def namesOf (es : List (String × FTree)) : List String :=
  es.map Prod.fst

/-- Look up a child by name (first match), as a directory listing does. -/
def lookupTree (n : String) (es : List (String × FTree)) : Option FTree :=
  (es.find? (fun e => e.1 == n)).map Prod.snd

/-- Line count contributed by an entry to a unique-lines total: regular
files contribute their number of lines, directories contribute nothing
(diff_test.py lines 180-185, the os.path.isfile guard). -/
def entryLines (e : String × FTree) : Nat :=
  match e.2 with
  | FTree.file ls => ls.length
  | FTree.dir _ => 0

/-- count_unique (diff_test.py lines 166-188): number of entries that are
only on one side, and the total lines of those that are regular files. -/
def count_unique (files : List (String × FTree)) : Nat × Nat :=
  (files.length, files.foldl (fun acc e => acc + entryLines e) 0)

/-- One line of a line diff: tags stand for the leading characters of the
lines produced by the differ (a plus line, a minus line, a common line). -/
inductive DiffLine where
  | added : String → DiffLine
  | removed : String → DiffLine
  | common : String → DiffLine

/-- Recognizer for plus lines. -/
def DiffLine.isAdded : DiffLine → Bool
  | DiffLine.added _ => true
  | _ => false

/-- Recognizer for minus lines. -/
def DiffLine.isRemoved : DiffLine → Bool
  | DiffLine.removed _ => true
  | _ => false

/-- Length of a longest common subsequence, with fuel (fuel at least the
length of the first list suffices along the recursion used below). -/
def lcsLenF : Nat → List String → List String → Nat
  | 0, _, _ => 0
  | _ + 1, [], _ => 0
  | _ + 1, _ :: _, [] => 0
  | k + 1, x :: xs, y :: ys =>
    if x = y then lcsLenF k xs ys + 1
    else max (lcsLenF k xs (y :: ys)) (lcsLenF k (x :: xs) ys)

/-- Modelled from the spec: difflib.ndiff is an external library; the spec
describes the Line Differ as a standard longest-common-subsequence-style
line diff with addition/deletion only. Left-only lines become minus lines,
right-only lines plus lines, shared lines common lines. -/
def lcsDiffF : Nat → List String → List String → List DiffLine
  | 0, _, _ => []
  | _ + 1, [], ys => ys.map DiffLine.added
  | _ + 1, x :: xs, [] => (x :: xs).map DiffLine.removed
  | k + 1, x :: xs, y :: ys =>
    if x = y then DiffLine.common x :: lcsDiffF k xs ys
    else
      if lcsLenF k (x :: xs) ys ≤ lcsLenF k xs (y :: ys) then
        DiffLine.removed x :: lcsDiffF k xs (y :: ys)
      else
        DiffLine.added y :: lcsDiffF k (x :: xs) ys

/-- compare_files (diff_test.py lines 190-213): run the line differ over the
two files' lines, count plus and minus lines, and flag the pair as
different exactly when added + removed > 0.  Result (diff, added, removed)
with diff being the 1/0 flag of the source. -/
def compare_files (left right : List String) : Nat × Nat × Nat :=
  let diffLines := lcsDiffF (left.length + right.length) left right
  let added := (diffLines.filter DiffLine.isAdded).length
  let removed := (diffLines.filter DiffLine.isRemoved).length
  let diff := if added + removed > 0 then 1 else 0
  (diff, added, removed)

/-- count_common (diff_test.py lines 215-238): accumulate compare_files over
the pairs of same-name regular files, giving (diff_files, added, removed). -/
def count_common (pairs : List (List String × List String)) : Nat × Nat × Nat :=
  pairs.foldl
    (fun acc p =>
      let c := compare_files p.1 p.2
      (acc.1 + c.1, acc.2.1 + c.2.1, acc.2.2 + c.2.2))
    (0, 0, 0)

/-- The seven metrics produced by compare_dirs (diff_test.py lines 240-270). -/
structure DiffMetrics where
  left_files : Nat
  right_files : Nat
  diff_files : Nat
  left_lines : Nat
  right_lines : Nat
  added_lines : Nat
  removed_lines : Nat
deriving DecidableEq

/-- The all-zero metrics record. -/
def zeroMetrics : DiffMetrics :=
  ⟨0, 0, 0, 0, 0, 0, 0⟩

/-- Fieldwise sum, as the aggregation loop of compare_dirs performs
(diff_test.py lines 266-269). -/
def addMetrics (a b : DiffMetrics) : DiffMetrics :=
  ⟨a.left_files + b.left_files, a.right_files + b.right_files,
   a.diff_files + b.diff_files, a.left_lines + b.left_lines,
   a.right_lines + b.right_lines, a.added_lines + b.added_lines,
   a.removed_lines + b.removed_lines⟩

/-- Pair of same-name regular files of two listings, as classified by the
tree-compare primitive (filecmp.dircmp common_files). -/
def commonFilePair (r : List (String × FTree)) (e : String × FTree) :
    Option (List String × List String) :=
  match e.2, lookupTree e.1 r with
  | FTree.file ls, some (FTree.file rs) => some (ls, rs)
  | _, _ => none

/-- Pair of same-name subdirectory listings of two listings (filecmp.dircmp
subdirs / common_dirs). -/
def commonDirPair (r : List (String × FTree)) (e : String × FTree) :
    Option (List (String × FTree) × List (String × FTree)) :=
  match e.2, lookupTree e.1 r with
  | FTree.dir les, some (FTree.dir res) => some (les, res)
  | _, _ => none

/-- compare_dirs (diff_test.py lines 240-270) over two directory listings:
unique entries on each side feed count_unique, same-name regular files feed
count_common, and same-name subdirectories are compared recursively with
their metrics added fieldwise.  Entries of common name but mismatched kind
(file against directory) are ignored, as filecmp.dircmp classifies them as
common_funny and compare_dirs never reads that attribute.  The fuel
argument dominates the recursion depth; with zero fuel the result is the
all-zero record (never reached when fuel exceeds the tree depth). -/
def compare_dirs : Nat → List (String × FTree) → List (String × FTree) → DiffMetrics
  | 0, _, _ => zeroMetrics
  | fuel + 1, l, r =>
    let left_only := l.filter (fun e => decide (e.1 ∉ namesOf r))
    let right_only := r.filter (fun e => decide (e.1 ∉ namesOf l))
    let lu := count_unique left_only
    let ru := count_unique right_only
    let cc := count_common (l.filterMap (commonFilePair r))
    let base : DiffMetrics := ⟨lu.1, ru.1, cc.1, lu.2, ru.2, cc.2.1, cc.2.2⟩
    (l.filterMap (commonDirPair r)).foldl
      (fun acc p => addMetrics acc (compare_dirs fuel p.1 p.2)) base

/-- A commit-level metrics record: the compare_dirs metrics plus the derived
totals and the commit identification, as Metrics.compute_metrics builds it
(diff_test.py lines 312-341). -/
structure CommitMetrics extends DiffMetrics where
  total_files : Nat
  total_lines : Nat
  commit_seq : Nat
  commit : String
  date : String

/-- Metrics.compute_metrics (diff_test.py lines 312-341): check out commit
number commit_no (modelled by the pure map repoTree from sequence number to
the repository listing after that checkout), compare against the package
directory, and extend the record with the derived totals and the commit
hash and date. -/
def compute_metrics (repoTree : Nat → List (String × FTree))
    (dirTree : List (String × FTree)) (commits : List (String × String))
    (fuel commit_no : Nat) : CommitMetrics :=
  let m := compare_dirs fuel (repoTree commit_no) dirTree
  { toDiffMetrics := m
    total_files := m.left_files + m.right_files + m.diff_files
    total_lines := m.left_lines + m.right_lines + m.added_lines + m.removed_lines
    commit_seq := commit_no
    commit := (commits.getD commit_no ("", "")).1
    date := (commits.getD commit_no ("", "")).2 }

/-- The divergence metric driving the search: the total_lines field of the
metrics computed for a commit sequence number. -/
def metricF (repoTree : Nat → List (String × FTree))
    (dirTree : List (String × FTree)) (commits : List (String × String))
    (fuel : Nat) : Nat → Nat :=
  fun seq_no => (compute_metrics repoTree dirTree commits fuel seq_no).total_lines

/-- Minimum of a list of naturals, as min() of a non-empty Python list
(0 on the empty list, which the source never reaches). -/
def listMin : List Nat → Nat
  | [] => 0
  | [x] => x
  | x :: y :: xs => min x (listMin (y :: xs))

/-- Maximum of a list of naturals, as max() of a non-empty Python list. -/
def listMax : List Nat → Nat
  | [] => 0
  | x :: xs => max x (listMax xs)

/-- Index of the first occurrence of a value, as Python list.index (the
length if the value is absent, which the source never reaches). -/
def pyIndexOf (a : Nat) : List Nat → Nat
  | [] => 0
  | x :: xs => if x = a then 0 else pyIndexOf a xs + 1

/-- Insert a key into a sorted list of distinct keys, keeping it sorted:
this models adding a key to the metrics dictionary, whose key set is always
read back in sorted order. -/
def insertSorted (x : Nat) : List Nat → List Nat
  | [] => [x]
  | y :: ys =>
    if x < y then x :: y :: ys
    else if x = y then y :: ys
    else y :: insertSorted x ys

/-- Python list(range(first, last, step)) for a positive step: first,
first + step, ... strictly below last. -/
def pyRange (first last step : Nat) : List Nat :=
  (List.range ((last - first + step - 1) / step)).map (fun i => first + i * step)

/-- The loop body of Metrics.compute_range (diff_test.py lines 343-361) over
an explicit list of sequence numbers: a number already in the cache is
skipped with no side effect; otherwise the checkout-and-compare is invoked
(recorded by appending the number to the log) and the key enters the
cache. -/
def computeRangeAux (cache log : List Nat) : List Nat → List Nat × List Nat
  | [] => (cache, log)
  | s :: rest =>
    if s ∈ cache then computeRangeAux cache log rest
    else computeRangeAux (insertSorted s cache) (log ++ [s]) rest

/-- Metrics.compute_range (diff_test.py lines 343-361): sample the sequence
numbers list(range(first, last, step)) + [last]. -/
def compute_range (cache log : List Nat) (first last step : Nat) : List Nat × List Nat :=
  computeRangeAux cache log (pyRange first last step ++ [last])

/-- One iteration of the buffer update of Metrics.min_range (diff_test.py
lines 380-398) on the state (values, indexes): append while
len(values) <= length; otherwise, when the new value is below the current
maximum, pop the first entry holding that maximum from both lists and
append the new sample on the right. -/
def minRangeStep (length : Nat) (f : Nat → Nat) (st : List Nat × List Nat)
    (seq_no : Nat) : List Nat × List Nat :=
  let values := st.1
  let indexes := st.2
  let value := f seq_no
  if values.length ≤ length then
    (values ++ [value], indexes ++ [seq_no])
  else
    let largest := listMax values
    if value < largest then
      let li := pyIndexOf largest values
      (values.eraseIdx li ++ [value], indexes.eraseIdx li ++ [seq_no])
    else
      (values, indexes)

/-- The buffer left by the loop of Metrics.min_range over the sorted cached
sequence numbers. -/
def minRangeFold (length : Nat) (f : Nat → Nat) (seq_commits : List Nat) :
    List Nat × List Nat :=
  seq_commits.foldl (minRangeStep length f) ([], [])

/-- Metrics.min_range (diff_test.py lines 363-413).  seq_commits is the
sorted list of cached sequence numbers, f the cached metric value of each.
Returns (indexes[0], indexes[-1], min_index, min_value) after extending the
buffer one cached sample to the left (resp. right) when its lowest
(resp. highest) sequence number is not the extreme cached one. -/
def min_range (length : Nat) (f : Nat → Nat) (seq_commits : List Nat) :
    Nat × Nat × Nat × Nat :=
  let st := minRangeFold length f seq_commits
  let values := st.1
  let indexes := st.2
  let min_value := listMin values
  let min_index := indexes.getD (pyIndexOf min_value values) 0
  let indexes1 :=
    if seq_commits.headD 0 < indexes.headD 0 then
      seq_commits.getD (pyIndexOf (indexes.headD 0) seq_commits - 1) 0 :: indexes
    else indexes
  let indexes2 :=
    if indexes1.getLastD 0 < seq_commits.getLastD 0 then
      indexes1 ++ [seq_commits.getD (pyIndexOf (indexes1.getLastD 0) seq_commits + 1) 0]
    else indexes1
  (indexes2.headD 0, indexes2.getLastD 0, min_index, min_value)

/-- The while loop of find_upstream_commit (diff_test.py lines 449-457),
with an explicit fuel bound on the number of iterations: while step >= 1,
sample with compute_range, recompute the window and the running best with
min_range over the whole cache, and halve step.  The step strictly
decreases each iteration, so fuel >= step makes fuel irrelevant (proved
below).  State: cache of computed sequence numbers, log of
checkout-and-compare invocations, window bounds, step, and the running
(min_seq, min_value) of the latest min_range call. -/
def searchLoopF (f : Nat → Nat) :
    Nat → List Nat → List Nat → Nat → Nat → Nat → Nat × Nat →
    List Nat × List Nat × (Nat × Nat)
  | 0, cache, log, _, _, _, best => (cache, log, best)
  | k + 1, cache, log, left, right, step, best =>
    if 1 ≤ step then
      let cl := compute_range cache log left right step
      let res := min_range 3 f cl.1
      searchLoopF f k cl.1 cl.2 res.1 res.2.1 (step / 2) (res.2.2.1, res.2.2.2)
    else (cache, log, best)

/-- The whole search of find_upstream_commit for a history of n commits and
an initial step: left = 0, right = n - 1, loop until step reaches 0. -/
def runSearch (f : Nat → Nat) (step0 n : Nat) : List Nat × List Nat × (Nat × Nat) :=
  searchLoopF f step0 [] [] 0 (n - 1) step0 (0, 0)

/-- The ambient parsed command-line arguments read by find_upstream_commit:
args.after (the lower time bound handed to the history fetch) and
args.step (the initial sampling stride). -/
structure Args where
  after : String
  step : Nat

/-- The best-match record assembled at the end of find_upstream_commit
(diff_test.py lines 459-464). -/
structure SearchResult where
  sequence : Nat
  diff : Nat
  hash : String
  date : String
deriving DecidableEq

/-- find_upstream_commit (diff_test.py lines 423-475).  fetch models the
history fetch from the repository as a map from the lower time bound to the
ordered (hash, date) commit list; crucially, the source passes args.after,
not its own after parameter, as that bound (line 444), and args.step as
the initial stride (line 451).  The tree comparison behind the metric is
modelled by repoTree / dirTree / fuel as in compute_metrics. -/
def find_upstream_commit (fetch : String → List (String × String)) (args : Args)
    (repoTree : Nat → List (String × FTree)) (dirTree : List (String × FTree))
    (fuel : Nat) (upstream dir after : String) : SearchResult :=
  let commits := fetch args.after
  let f := metricF repoTree dirTree commits fuel
  let out := runSearch f args.step commits.length
  let min_seq := out.2.2.1
  let min_value := out.2.2.2
  let min_commit := commits.getD min_seq ("", "")
  { sequence := min_seq, diff := min_value,
    hash := min_commit.1, date := min_commit.2 }

/-- The synthetic strictly unimodal total_lines sequence of the spec's
convergence test property, assigned to sequence numbers 0..6. -/
def demoLines : Nat → Nat :=
  fun n => [50, 40, 30, 10, 25, 45, 60].getD n 0

example : compare_files ["a\n", "b\n", "c\n"] ["a\n", "x\n", "c\n"] = (1, 1, 1) := by decide

example : (searchLoopF demoLines 4 [] [] 0 6 4 (0, 0)).2.2 = (3, 10) := by decide

example : (searchLoopF demoLines 5 [] [] 0 6 5 (0, 0)).2.2 = (3, 10) := by decide

/-! ### Basic lemmas about the Python-style list helpers -/

theorem listMin_le (l : List Nat) : ∀ x ∈ l, listMin l ≤ x := by
  induction l with
  | nil => intro x hx; cases hx
  | cons a t ih =>
    intro x hx
    cases t with
    | nil =>
      simp at hx
      simp [listMin, hx]
    | cons b t2 =>
      rcases List.mem_cons.mp hx with h | h
      · simp [listMin, h]
      · have := ih x h
        simp [listMin]
        right
        exact this

theorem listMin_mem (l : List Nat) (h : l ≠ []) : listMin l ∈ l := by
  induction l with
  | nil => exact absurd rfl h
  | cons a t ih =>
    cases t with
    | nil => simp [listMin]
    | cons b t2 =>
      have hmem := ih (by simp)
      rcases Nat.le_total a (listMin (b :: t2)) with hle | hle
      · have : listMin (a :: b :: t2) = a := by
          simp [listMin, Nat.min_eq_left hle]
        rw [this]
        exact List.mem_cons_self a (b :: t2)
      · have : listMin (a :: b :: t2) = listMin (b :: t2) := by
          simp [listMin, Nat.min_eq_right hle]
        rw [this]
        exact List.mem_cons_of_mem a hmem

theorem le_listMax (l : List Nat) : ∀ x ∈ l, x ≤ listMax l := by
  induction l with
  | nil => intro x hx; cases hx
  | cons a t ih =>
    intro x hx
    rcases List.mem_cons.mp hx with h | h
    · simp [listMax, h]
    · have := ih x h
      simp [listMax]
      right
      exact this

theorem listMax_mem (l : List Nat) (h : l ≠ []) : listMax l ∈ l := by
  induction l with
  | nil => exact absurd rfl h
  | cons a t ih =>
    cases t with
    | nil => simp [listMax]
    | cons b t2 =>
      have hmem := ih (by simp)
      have he : listMax (a :: b :: t2) = max a (listMax (b :: t2)) := rfl
      rcases Nat.le_total (listMax (b :: t2)) a with hle | hle
      · have : listMax (a :: b :: t2) = a := by
          rw [he, Nat.max_eq_left hle]
        rw [this]
        exact List.mem_cons_self a (b :: t2)
      · have : listMax (a :: b :: t2) = listMax (b :: t2) := by
          rw [he, Nat.max_eq_right hle]
        rw [this]
        exact List.mem_cons_of_mem a hmem

theorem pyIndexOf_lt_length {a : Nat} {l : List Nat} (h : a ∈ l) :
    pyIndexOf a l < l.length := by
  induction l with
  | nil => cases h
  | cons x xs ih =>
    by_cases hx : x = a
    · simp [pyIndexOf, hx]
    · rcases List.mem_cons.mp h with h1 | h1
      · exact absurd h1.symm hx
      · simpa [pyIndexOf, hx] using ih h1

theorem getD_pyIndexOf {a : Nat} {l : List Nat} (h : a ∈ l) (d : Nat) :
    l.getD (pyIndexOf a l) d = a := by
  induction l with
  | nil => cases h
  | cons x xs ih =>
    by_cases hx : x = a
    · simp [pyIndexOf, hx]
    · rcases List.mem_cons.mp h with h1 | h1
      · exact absurd h1.symm hx
      · simpa [pyIndexOf, hx] using ih h1

theorem pyIndexOf_eq {a : Nat} {l : List Nat} {k : Nat} (hk : k < l.length)
    (hget : l.get ⟨k, hk⟩ = a)
    (hfirst : ∀ j (hj : j < l.length), j < k → l.get ⟨j, hj⟩ ≠ a) :
    pyIndexOf a l = k := by
  induction l generalizing k with
  | nil => cases hk
  | cons x xs ih =>
    cases k with
    | zero =>
      simp at hget
      simp [pyIndexOf, hget]
    | succ k2 =>
      have hx : x ≠ a := by
        have := hfirst 0 (by simp) (Nat.succ_pos k2)
        simpa using this
      have hk2 : k2 < xs.length := by simpa using hk
      have hget2 : xs.get ⟨k2, hk2⟩ = a := by simpa using hget
      have hfirst2 : ∀ j (hj : j < xs.length), j < k2 → xs.get ⟨j, hj⟩ ≠ a := by
        intro j hj hjk
        have := hfirst (j + 1) (by simpa using Nat.succ_lt_succ hj) (Nat.succ_lt_succ hjk)
        simpa using this
      simp [pyIndexOf, hx, ih hk2 hget2 hfirst2]

theorem mem_eraseIdx_of_get_ne {m : Nat} {l : List Nat} {i : Nat} (hm : m ∈ l)
    (hne : ∀ h : i < l.length, l.get ⟨i, h⟩ ≠ m) : m ∈ l.eraseIdx i := by
  induction l generalizing i with
  | nil => cases hm
  | cons x xs ih =>
    cases i with
    | zero =>
      have hx : x ≠ m := by simpa using hne (by simp)
      rcases List.mem_cons.mp hm with h1 | h1
      · exact absurd h1.symm hx
      · simpa [List.eraseIdx] using h1
    | succ i2 =>
      rcases List.mem_cons.mp hm with h1 | h1
      · simp [List.eraseIdx, h1]
      · have : m ∈ xs.eraseIdx i2 := by
          apply ih h1
          intro h
          have := hne (by simpa using Nat.succ_lt_succ h)
          simpa using this
        simp [List.eraseIdx, this]

theorem map_eraseIdx {α β : Type} (f : α → β) (l : List α) (i : Nat) :
    (l.map f).eraseIdx i = (l.eraseIdx i).map f := by
  induction l generalizing i with
  | nil => simp [List.eraseIdx]
  | cons x xs ih =>
    cases i with
    | zero => simp [List.eraseIdx]
    | succ i2 => simp [List.eraseIdx, ih]

theorem mem_insertSorted {z x : Nat} {c : List Nat} :
    z ∈ insertSorted x c ↔ z = x ∨ z ∈ c := by
  induction c with
  | nil => simp [insertSorted]
  | cons y ys ih =>
    by_cases h1 : x < y
    · simp [insertSorted, h1]
    · by_cases h2 : x = y
      · simp [insertSorted, h1, h2]
      · simp [insertSorted, h1, h2, ih]
        tauto

theorem insertSorted_sorted {x : Nat} {c : List Nat}
    (h : List.Sorted (· < ·) c) : List.Sorted (· < ·) (insertSorted x c) := by
  induction c with
  | nil => simp [insertSorted]
  | cons y ys ih =>
    rcases List.sorted_cons.mp h with ⟨hy, hys⟩
    by_cases h1 : x < y
    · have hrw : insertSorted x (y :: ys) = x :: y :: ys := by
        simp [insertSorted, h1]
      rw [hrw]
      refine List.sorted_cons.mpr ⟨?_, h⟩
      intro b hb
      rcases List.mem_cons.mp hb with h2 | h2
      · exact h2 ▸ h1
      · exact Nat.lt_trans h1 (hy b h2)
    · by_cases h2 : x = y
      · have hrw : insertSorted x (y :: ys) = y :: ys := by
          simp [insertSorted, h1, h2]
        rw [hrw]
        exact h
      · have hyx : y < x := by omega
        have hrw : insertSorted x (y :: ys) = y :: insertSorted x ys := by
          simp [insertSorted, h1, h2]
        rw [hrw]
        refine List.sorted_cons.mpr ⟨?_, ih hys⟩
        intro b hb
        rcases mem_insertSorted.mp hb with h3 | h3
        · exact h3 ▸ hyx
        · exact hy b h3

/-! ### The buffer invariant of Metrics.min_range -/

/-- Invariant of the (values, indexes) buffer of Metrics.min_range after the
loop has processed the sorted cached sequence numbers p: values mirrors f
over indexes, indexes is strictly increasing and drawn from p, the buffer
never exceeds length + 1 entries, and the buffer retains the least cached
sequence number attaining the minimal metric value over all of p. -/
structure BufInv (length : Nat) (f : Nat → Nat) (p : List Nat)
    (st : List Nat × List Nat) : Prop where
  map_eq : st.1 = st.2.map f
  sorted : List.Sorted (· < ·) st.2
  mem_sub : ∀ i ∈ st.2, i ∈ p
  len_le : st.1.length ≤ length + 1
  argmin : p ≠ [] → ∃ m, m ∈ st.2 ∧ (∀ t ∈ p, f m ≤ f t) ∧ (∀ t ∈ p, f t = f m → m ≤ t)

theorem bufInv_step {L : Nat} {f : Nat → Nat} {p : List Nat}
    {st : List Nat × List Nat} {s : Nat} (h : BufInv L f p st)
    (hgt : ∀ x ∈ p, x < s) : BufInv L f (p ++ [s]) (minRangeStep L f st s) := by
  obtain ⟨hmap, hsort, hsub, hlen, hmin⟩ := h
  by_cases hroom : st.1.length ≤ L
  · have hstep : minRangeStep L f st s = (st.1 ++ [f s], st.2 ++ [s]) := by
      simp [minRangeStep, hroom]
    rw [hstep]
    refine ⟨?_, ?_, ?_, ?_, ?_⟩
    · simp [hmap]
    · refine List.pairwise_append.mpr ⟨hsort, List.sorted_singleton s, ?_⟩
      intro a ha b hb
      simp at hb
      subst hb
      exact hgt a (hsub a ha)
    · intro i hi
      rcases List.mem_append.mp hi with h1 | h1
      · exact List.mem_append.mpr (Or.inl (hsub i h1))
      · exact List.mem_append.mpr (Or.inr h1)
    · simpa using Nat.succ_le_succ hroom
    · intro _
      by_cases hp : p = []
      · refine ⟨s, by simp, ?_, ?_⟩
        · intro t ht
          rcases List.mem_append.mp ht with h1 | h1
          · rw [hp] at h1; cases h1
          · simp at h1; subst h1; exact Nat.le_refl _
        · intro t ht _
          rcases List.mem_append.mp ht with h1 | h1
          · rw [hp] at h1; cases h1
          · simp at h1; omega
      · obtain ⟨m, hmmem, hmle, hmtie⟩ := hmin hp
        by_cases hfs : f s < f m
        · refine ⟨s, by simp, ?_, ?_⟩
          · intro t ht
            rcases List.mem_append.mp ht with h1 | h1
            · exact Nat.le_trans (Nat.le_of_lt hfs) (hmle t h1)
            · simp at h1; subst h1; exact Nat.le_refl _
          · intro t ht hft
            rcases List.mem_append.mp ht with h1 | h1
            · have := hmle t h1
              omega
            · simp at h1; omega
        · refine ⟨m, List.mem_append.mpr (Or.inl hmmem), ?_, ?_⟩
          · intro t ht
            rcases List.mem_append.mp ht with h1 | h1
            · exact hmle t h1
            · simp at h1; subst h1; omega
          · intro t ht hft
            rcases List.mem_append.mp ht with h1 | h1
            · exact hmtie t h1 hft
            · simp at h1
              subst h1
              exact Nat.le_of_lt (hgt m (hsub m hmmem))
  · have hne1 : st.1 ≠ [] := by
      intro hcon
      rw [hcon] at hroom
      simp at hroom
    have hlmem : listMax st.1 ∈ st.1 := listMax_mem st.1 hne1
    have hli : pyIndexOf (listMax st.1) st.1 < st.1.length := pyIndexOf_lt_length hlmem
    have hlen21 : st.1.length = st.2.length := by rw [hmap]; simp
    have hne2 : st.2 ≠ [] := by
      intro hcon
      rw [hcon] at hlen21
      simp at hlen21
      exact hne1 hlen21
    have hp : p ≠ [] := by
      obtain ⟨e, he⟩ := List.exists_mem_of_ne_nil st.2 hne2
      intro hcon
      rw [hcon] at hsub
      exact (List.not_mem_nil e) (hsub e he)
    obtain ⟨m, hmmem, hmle, hmtie⟩ := hmin hp
    -- the largest buffer value is the value of some cached sequence number
    have hlval : ∃ j, j ∈ st.2 ∧ f j = listMax st.1 := by
      have hlmem2 : listMax st.1 ∈ st.2.map f := by
        rw [← hmap]
        exact hlmem
      obtain ⟨j, hj, hjf⟩ := List.mem_map.mp hlmem2
      exact ⟨j, hj, hjf⟩
    by_cases hsmall : f s < listMax st.1
    · have hstep : minRangeStep L f st s =
        (st.1.eraseIdx (pyIndexOf (listMax st.1) st.1) ++ [f s],
         st.2.eraseIdx (pyIndexOf (listMax st.1) st.1) ++ [s]) := by
        simp [minRangeStep, hroom, hsmall]
      rw [hstep]
      have hsubl : (st.2.eraseIdx (pyIndexOf (listMax st.1) st.1)).Sublist st.2 :=
        List.eraseIdx_sublist st.2 (pyIndexOf (listMax st.1) st.1)
      refine ⟨?_, ?_, ?_, ?_, ?_⟩
      · rw [hmap, map_eraseIdx, List.map_append]
        rfl
      · refine List.pairwise_append.mpr
          ⟨List.Pairwise.sublist hsubl hsort, List.sorted_singleton s, ?_⟩
        intro a ha b hb
        simp at hb
        subst hb
        exact hgt a (hsub a (hsubl.subset ha))
      · intro i hi
        rcases List.mem_append.mp hi with h1 | h1
        · exact List.mem_append.mpr (Or.inl (hsub i (hsubl.subset h1)))
        · exact List.mem_append.mpr (Or.inr h1)
      · rw [List.length_append, List.length_eraseIdx]
        simp [hli]
        omega
      · intro _
        by_cases hfs : f s < f m
        · refine ⟨s, by simp, ?_, ?_⟩
          · intro t ht
            rcases List.mem_append.mp ht with h1 | h1
            · exact Nat.le_trans (Nat.le_of_lt hfs) (hmle t h1)
            · simp at h1; subst h1; exact Nat.le_refl _
          · intro t ht hft
            rcases List.mem_append.mp ht with h1 | h1
            · have := hmle t h1
              omega
            · simp at h1; omega
        · have hml : f m < listMax st.1 := Nat.lt_of_le_of_lt (Nat.not_lt.mp hfs) hsmall
          have hmsurv : m ∈ st.2.eraseIdx (pyIndexOf (listMax st.1) st.1) := by
            apply mem_eraseIdx_of_get_ne hmmem
            set li := pyIndexOf (listMax st.1) st.1 with hlidef
            intro hh heq
            have hg1 : st.1.getD li 0 = listMax st.1 := getD_pyIndexOf hlmem 0
            have h4 : li < (st.2.map f).length := by simpa using hh
            have h5 : st.1.getD li 0 = (st.2.map f).getD li 0 := by
              rw [hmap]
            have h6 : (st.2.map f).getD li 0 = f (st.2.get ⟨li, hh⟩) := by
              rw [List.getD_eq_getElem (st.2.map f) 0 h4]
              simp
            rw [heq] at h6
            rw [hg1, h6] at h5
            omega
          refine ⟨m, List.mem_append.mpr (Or.inl hmsurv), ?_, ?_⟩
          · intro t ht
            rcases List.mem_append.mp ht with h1 | h1
            · exact hmle t h1
            · simp at h1; subst h1; omega
          · intro t ht hft
            rcases List.mem_append.mp ht with h1 | h1
            · exact hmtie t h1 hft
            · simp at h1
              subst h1
              exact Nat.le_of_lt (hgt m (hsub m hmmem))
    · have hstep : minRangeStep L f st s = st := by
        simp [minRangeStep, hroom, hsmall]
      rw [hstep]
      refine ⟨hmap, hsort, ?_, hlen, ?_⟩
      · intro i hi
        exact List.mem_append.mpr (Or.inl (hsub i hi))
      · intro _
        obtain ⟨j, hj2, hjf⟩ := hlval
        have hms : f m ≤ f s := by
          have h1 : f m ≤ f j := hmle j (hsub j hj2)
          omega
        refine ⟨m, hmmem, ?_, ?_⟩
        · intro t ht
          rcases List.mem_append.mp ht with h1 | h1
          · exact hmle t h1
          · simp at h1; subst h1; exact hms
        · intro t ht hft
          rcases List.mem_append.mp ht with h1 | h1
          · exact hmtie t h1 hft
          · simp at h1
            subst h1
            exact Nat.le_of_lt (hgt m (hsub m hmmem))

theorem bufInv_fold {L : Nat} {f : Nat → Nat} :
    ∀ (todo p : List Nat) (st : List Nat × List Nat), BufInv L f p st →
    (∀ x ∈ p, ∀ y ∈ todo, x < y) → List.Sorted (· < ·) todo →
    BufInv L f (p ++ todo) (todo.foldl (minRangeStep L f) st) := by
  intro todo
  induction todo with
  | nil =>
    intro p st h _ _
    simpa using h
  | cons t ts ih =>
    intro p st h hcross hsorted
    rcases List.sorted_cons.mp hsorted with ⟨ht, hts⟩
    have h1 : BufInv L f (p ++ [t]) (minRangeStep L f st t) :=
      bufInv_step h (fun x hx => hcross x hx t (by simp))
    have hcross1 : ∀ x ∈ p ++ [t], ∀ y ∈ ts, x < y := by
      intro x hx y hy
      rcases List.mem_append.mp hx with h2 | h2
      · exact hcross x h2 y (by simp [hy])
      · simp at h2
        subst h2
        exact ht y hy
    have := ih (p ++ [t]) (minRangeStep L f st t) h1 hcross1 hts
    simpa [List.append_assoc] using this

theorem bufInv_init (L : Nat) (f : Nat → Nat) (cache : List Nat)
    (hs : List.Sorted (· < ·) cache) : BufInv L f cache (minRangeFold L f cache) := by
  have h0 : BufInv L f [] ([], []) := by
    refine ⟨rfl, List.sorted_nil, ?_, ?_, ?_⟩
    · intro i hi; cases hi
    · simp
    · intro hcon; exact absurd rfl hcon
  have := bufInv_fold cache [] ([], []) h0 (by intro x hx; cases hx) hs
  simpa [minRangeFold] using this

/-! ### What min_range returns: the least cached argmin of the metric -/

theorem getD_map_lt (f : Nat → Nat) {l : List Nat} {i : Nat} (h : i < l.length) :
    (l.map f).getD i 0 = f (l.getD i 0) := by
  rw [List.getD_eq_getElem (l.map f) 0 (by simpa using h), List.getD_eq_getElem l 0 h]
  simp

theorem getD_mem {l : List Nat} {i : Nat} (h : i < l.length) : l.getD i 0 ∈ l := by
  rw [List.getD_eq_getElem l 0 h]
  have := List.get_mem l i h
  simpa using this

theorem sorted_getD_lt {l : List Nat} (hs : List.Sorted (· < ·) l) {i j : Nat}
    (hi : i < l.length) (hj : j < l.length) (hij : i < j) :
    l.getD i 0 < l.getD j 0 := by
  have h1 := List.pairwise_iff_get.mp hs ⟨i, hi⟩ ⟨j, hj⟩ (by simpa using hij)
  rw [List.getD_eq_getElem l 0 hi, List.getD_eq_getElem l 0 hj]
  simpa using h1

theorem mem_getD_index {m : Nat} {l : List Nat} (hm : m ∈ l) :
    ∃ k, k < l.length ∧ l.getD k 0 = m := by
  obtain ⟨k, hk⟩ := List.mem_iff_get.mp hm
  refine ⟨k, k.isLt, ?_⟩
  rw [List.getD_eq_getElem l 0 k.isLt]
  simpa using hk

theorem pyIndexOf_eq_getD {a : Nat} {l : List Nat} {k : Nat} (hk : k < l.length)
    (hget : l.getD k 0 = a) (hfirst : ∀ j, j < k → l.getD j 0 ≠ a) :
    pyIndexOf a l = k := by
  apply pyIndexOf_eq hk
  · have h1 : l.get ⟨k, hk⟩ = l.getD k 0 := by
      rw [List.getD_eq_getElem l 0 hk]
      simp
    rw [h1]
    exact hget
  · intro j hj hjk
    have h1 : l.get ⟨j, hj⟩ = l.getD j 0 := by
      rw [List.getD_eq_getElem l 0 hj]
      simp
    rw [h1]
    exact hfirst j hjk

/-- The min_index computed by Metrics.min_range before the bound extension:
the buffer index at the position of the first occurrence of the minimal
buffer value. -/
def minIndexOf (L : Nat) (f : Nat → Nat) (cache : List Nat) : Nat :=
  (minRangeFold L f cache).2.getD
    (pyIndexOf (listMin (minRangeFold L f cache).1) (minRangeFold L f cache).1) 0

/-- The min_value computed by Metrics.min_range: the minimal buffer value. -/
def minValueOf (L : Nat) (f : Nat → Nat) (cache : List Nat) : Nat :=
  listMin (minRangeFold L f cache).1

theorem min_range_eq_minIndexOf (L : Nat) (f : Nat → Nat) (cache : List Nat) :
    (min_range L f cache).2.2.1 = minIndexOf L f cache ∧
    (min_range L f cache).2.2.2 = minValueOf L f cache :=
  ⟨rfl, rfl⟩

theorem minRangeFold_argmin (L : Nat) (f : Nat → Nat) (cache : List Nat)
    (hs : List.Sorted (· < ·) cache) (hne : cache ≠ []) :
    minIndexOf L f cache ∈ cache ∧
    minValueOf L f cache = f (minIndexOf L f cache) ∧
    (∀ t ∈ cache, f (minIndexOf L f cache) ≤ f t) ∧
    (∀ t ∈ cache, f t = f (minIndexOf L f cache) → minIndexOf L f cache ≤ t) := by
  obtain ⟨hmap, hsort, hsub, hlen, hminv⟩ := bufInv_init L f cache hs
  obtain ⟨m, hmmem, hmle, hmtie⟩ := hminv hne
  have hfm_mem : f m ∈ (minRangeFold L f cache).1 := by
    rw [hmap]
    exact List.mem_map_of_mem f hmmem
  have hminval : listMin (minRangeFold L f cache).1 = f m := by
    refine Nat.le_antisymm (listMin_le (minRangeFold L f cache).1 (f m) hfm_mem) ?_
    have hvne : (minRangeFold L f cache).1 ≠ [] := List.ne_nil_of_mem hfm_mem
    have hmem2 : listMin (minRangeFold L f cache).1 ∈ (minRangeFold L f cache).2.map f := by
      rw [← hmap]
      exact listMin_mem (minRangeFold L f cache).1 hvne
    obtain ⟨j, hj, hjf⟩ := List.mem_map.mp hmem2
    rw [← hjf]
    exact hmle j (hsub j hj)
  obtain ⟨km, hkm2, hgetm⟩ := mem_getD_index hmmem
  have hlen12 : (minRangeFold L f cache).1.length = (minRangeFold L f cache).2.length := by
    rw [hmap]
    simp
  have hkm1 : km < (minRangeFold L f cache).1.length := by omega
  have hget1 : (minRangeFold L f cache).1.getD km 0 = f m := by
    rw [hmap, getD_map_lt f hkm2, hgetm]
  have hfirst : ∀ j, j < km → (minRangeFold L f cache).1.getD j 0 ≠ f m := by
    intro j hjk hcon
    have hj2 : j < (minRangeFold L f cache).2.length := by omega
    have hgj : (minRangeFold L f cache).1.getD j 0 = f ((minRangeFold L f cache).2.getD j 0) := by
      rw [hmap, getD_map_lt f hj2]
    have hlt : (minRangeFold L f cache).2.getD j 0 < m := by
      have := sorted_getD_lt hsort hj2 hkm2 hjk
      rw [hgetm] at this
      exact this
    have hmemj : (minRangeFold L f cache).2.getD j 0 ∈ cache := hsub _ (getD_mem hj2)
    rw [hgj] at hcon
    have := hmtie _ hmemj hcon
    omega
  have hpy : pyIndexOf (f m) (minRangeFold L f cache).1 = km :=
    pyIndexOf_eq_getD hkm1 hget1 hfirst
  have hidx : minIndexOf L f cache = m := by
    rw [minIndexOf, hminval, hpy, hgetm]
  rw [hidx]
  rw [minValueOf, hminval]
  exact ⟨hsub m hmmem, rfl, hmle, hmtie⟩

/-! ### Behaviour of compute_range and the search loop -/

theorem computeRangeAux_mono (todo : List Nat) :
    ∀ (cache log : List Nat) (x : Nat), x ∈ cache →
    x ∈ (computeRangeAux cache log todo).1 := by
  induction todo with
  | nil =>
    intro cache log x hx
    simpa [computeRangeAux] using hx
  | cons s rest ih =>
    intro cache log x hx
    by_cases h : s ∈ cache
    · simpa [computeRangeAux, h] using ih cache log x hx
    · have : x ∈ insertSorted s cache := mem_insertSorted.mpr (Or.inr hx)
      simpa [computeRangeAux, h] using ih (insertSorted s cache) (log ++ [s]) x this

theorem computeRangeAux_mem (todo : List Nat) :
    ∀ (cache log : List Nat) (x : Nat), x ∈ todo →
    x ∈ (computeRangeAux cache log todo).1 := by
  induction todo with
  | nil =>
    intro cache log x hx
    cases hx
  | cons s rest ih =>
    intro cache log x hx
    by_cases h : s ∈ cache
    · rcases List.mem_cons.mp hx with h1 | h1
      · subst h1
        simpa [computeRangeAux, h] using computeRangeAux_mono rest cache log x h
      · simpa [computeRangeAux, h] using ih cache log x h1
    · rcases List.mem_cons.mp hx with h1 | h1
      · subst h1
        have : x ∈ insertSorted x cache := mem_insertSorted.mpr (Or.inl rfl)
        simpa [computeRangeAux, h] using
          computeRangeAux_mono rest (insertSorted x cache) (log ++ [x]) x this
      · simpa [computeRangeAux, h] using ih (insertSorted s cache) (log ++ [s]) x h1

theorem computeRangeAux_sorted (todo : List Nat) :
    ∀ (cache log : List Nat), List.Sorted (· < ·) cache →
    List.Sorted (· < ·) (computeRangeAux cache log todo).1 := by
  induction todo with
  | nil =>
    intro cache log hx
    simpa [computeRangeAux] using hx
  | cons s rest ih =>
    intro cache log hx
    by_cases h : s ∈ cache
    · simpa [computeRangeAux, h] using ih cache log hx
    · simpa [computeRangeAux, h] using
        ih (insertSorted s cache) (log ++ [s]) (insertSorted_sorted hx)

theorem computeRangeAux_log (todo : List Nat) :
    ∀ (cache log : List Nat), (∀ y ∈ log, y ∈ cache) → log.Nodup →
    (computeRangeAux cache log todo).2.Nodup ∧
    ∀ y ∈ (computeRangeAux cache log todo).2, y ∈ (computeRangeAux cache log todo).1 := by
  induction todo with
  | nil =>
    intro cache log hsub hnd
    refine ⟨by simpa [computeRangeAux] using hnd, ?_⟩
    intro y hy
    simp [computeRangeAux] at hy
    simpa [computeRangeAux] using hsub y hy
  | cons s rest ih =>
    intro cache log hsub hnd
    by_cases h : s ∈ cache
    · have := ih cache log hsub hnd
      simpa [computeRangeAux, h] using this
    · have hsub2 : ∀ y ∈ log ++ [s], y ∈ insertSorted s cache := by
        intro y hy
        rcases List.mem_append.mp hy with h1 | h1
        · exact mem_insertSorted.mpr (Or.inr (hsub y h1))
        · simp at h1
          subst h1
          exact mem_insertSorted.mpr (Or.inl rfl)
      have hnd2 : (log ++ [s]).Nodup := by
        refine List.nodup_append.mpr ⟨hnd, List.nodup_singleton s, ?_⟩
        intro y hy hy2
        simp at hy2
        subst hy2
        exact h (hsub y hy)
      have := ih (insertSorted s cache) (log ++ [s]) hsub2 hnd2
      simpa [computeRangeAux, h] using this

theorem searchLoopF_zero_step (f : Nat → Nat) (k : Nat)
    (cache log : List Nat) (left right : Nat) (best : Nat × Nat) :
    searchLoopF f k cache log left right 0 best = (cache, log, best) := by
  cases k with
  | zero => rfl
  | succ k2 => simp [searchLoopF]

theorem searchLoopF_mono (f : Nat → Nat) (k : Nat) :
    ∀ (cache log : List Nat) (left right step : Nat) (best : Nat × Nat) (x : Nat),
    x ∈ cache → x ∈ (searchLoopF f k cache log left right step best).1 := by
  induction k with
  | zero =>
    intro cache log left right step best x hx
    simpa [searchLoopF] using hx
  | succ k2 ih =>
    intro cache log left right step best x hx
    by_cases hs : 1 ≤ step
    · have h1 : x ∈ (compute_range cache log left right step).1 :=
        computeRangeAux_mono _ cache log x hx
      simpa [searchLoopF, hs] using ih _ _ _ _ _ _ x h1
    · simpa [searchLoopF, hs] using hx

theorem searchLoopF_sorted (f : Nat → Nat) (k : Nat) :
    ∀ (cache log : List Nat) (left right step : Nat) (best : Nat × Nat),
    List.Sorted (· < ·) cache →
    List.Sorted (· < ·) (searchLoopF f k cache log left right step best).1 := by
  induction k with
  | zero =>
    intro cache log left right step best hx
    simpa [searchLoopF] using hx
  | succ k2 ih =>
    intro cache log left right step best hx
    by_cases hs : 1 ≤ step
    · have h1 : List.Sorted (· < ·) (compute_range cache log left right step).1 :=
        computeRangeAux_sorted _ cache log hx
      simpa [searchLoopF, hs] using ih _ _ _ _ _ _ h1
    · simpa [searchLoopF, hs] using hx

theorem searchLoopF_log (f : Nat → Nat) (k : Nat) :
    ∀ (cache log : List Nat) (left right step : Nat) (best : Nat × Nat),
    (∀ y ∈ log, y ∈ cache) → log.Nodup →
    (searchLoopF f k cache log left right step best).2.1.Nodup ∧
    ∀ y ∈ (searchLoopF f k cache log left right step best).2.1,
      y ∈ (searchLoopF f k cache log left right step best).1 := by
  induction k with
  | zero =>
    intro cache log left right step best hsub hnd
    simpa [searchLoopF] using ⟨hnd, hsub⟩
  | succ k2 ih =>
    intro cache log left right step best hsub hnd
    by_cases hs : 1 ≤ step
    · have h1 := computeRangeAux_log (pyRange left right step ++ [right]) cache log hsub hnd
      have := ih (compute_range cache log left right step).1
        (compute_range cache log left right step).2
        (min_range 3 f (compute_range cache log left right step).1).1
        (min_range 3 f (compute_range cache log left right step).1).2.1
        (step / 2)
        ((min_range 3 f (compute_range cache log left right step).1).2.2.1,
         (min_range 3 f (compute_range cache log left right step).1).2.2.2)
        h1.2 h1.1
      simpa [searchLoopF, hs] using this
    · simpa [searchLoopF, hs] using ⟨hnd, hsub⟩

theorem searchLoopF_best (f : Nat → Nat) (k : Nat) :
    ∀ (cache log : List Nat) (left right step : Nat) (best : Nat × Nat),
    1 ≤ step → step ≤ k →
    (searchLoopF f k cache log left right step best).2.2 =
      (min_range 3 f (searchLoopF f k cache log left right step best).1).2.2 := by
  induction k with
  | zero =>
    intro cache log left right step best hs hk
    omega
  | succ k2 ih =>
    intro cache log left right step best hs hk
    have hunfold : searchLoopF f (k2 + 1) cache log left right step best =
        searchLoopF f k2 (compute_range cache log left right step).1
          (compute_range cache log left right step).2
          (min_range 3 f (compute_range cache log left right step).1).1
          (min_range 3 f (compute_range cache log left right step).1).2.1
          (step / 2)
          ((min_range 3 f (compute_range cache log left right step).1).2.2.1,
           (min_range 3 f (compute_range cache log left right step).1).2.2.2) := by
      simp [searchLoopF, hs]
    rw [hunfold]
    by_cases hs2 : 1 ≤ step / 2
    · exact ih _ _ _ _ _ _ hs2 (by omega)
    · have hstep0 : step / 2 = 0 := by omega
      rw [hstep0]
      rw [searchLoopF_zero_step]

theorem searchLoopF_right_mem (f : Nat → Nat) (k : Nat)
    (cache log : List Nat) (left right step : Nat) (best : Nat × Nat)
    (hs : 1 ≤ step) (hk : 1 ≤ k) :
    right ∈ (searchLoopF f k cache log left right step best).1 := by
  cases k with
  | zero => omega
  | succ k2 =>
    have h1 : right ∈ (compute_range cache log left right step).1 :=
      computeRangeAux_mem (pyRange left right step ++ [right]) cache log right (by simp)
    simpa [searchLoopF, hs] using
      searchLoopF_mono f k2
        (compute_range cache log left right step).1
        (compute_range cache log left right step).2
        (min_range 3 f (compute_range cache log left right step).1).1
        (min_range 3 f (compute_range cache log left right step).1).2.1
        (step / 2)
        ((min_range 3 f (compute_range cache log left right step).1).2.2.1,
         (min_range 3 f (compute_range cache log left right step).1).2.2.2)
        right h1

theorem runSearch_best (f : Nat → Nat) (step0 n : Nat) (hstep : 1 ≤ step0) :
    (runSearch f step0 n).2.2.1 ∈ (runSearch f step0 n).1 ∧
    (runSearch f step0 n).2.2.2 = f ((runSearch f step0 n).2.2.1) ∧
    (∀ t ∈ (runSearch f step0 n).1, f ((runSearch f step0 n).2.2.1) ≤ f t) ∧
    (∀ t ∈ (runSearch f step0 n).1, f t = f ((runSearch f step0 n).2.2.1) →
      (runSearch f step0 n).2.2.1 ≤ t) := by
  have hbest := searchLoopF_best f step0 [] [] 0 (n - 1) step0 (0, 0) hstep (Nat.le_refl _)
  have hsorted := searchLoopF_sorted f step0 [] [] 0 (n - 1) step0 (0, 0) List.sorted_nil
  have hmem := searchLoopF_right_mem f step0 [] [] 0 (n - 1) step0 (0, 0) hstep hstep
  have hcne : (searchLoopF f step0 [] [] 0 (n - 1) step0 (0, 0)).1 ≠ [] :=
    List.ne_nil_of_mem hmem
  have harg := minRangeFold_argmin 3 f
    (searchLoopF f step0 [] [] 0 (n - 1) step0 (0, 0)).1 hsorted hcne
  have h1 : (runSearch f step0 n).2.2.1 =
      minIndexOf 3 f (searchLoopF f step0 [] [] 0 (n - 1) step0 (0, 0)).1 := by
    show (searchLoopF f step0 [] [] 0 (n - 1) step0 (0, 0)).2.2.1 = _
    rw [hbest]
    exact (min_range_eq_minIndexOf 3 f _).1
  have h2 : (runSearch f step0 n).2.2.2 =
      minValueOf 3 f (searchLoopF f step0 [] [] 0 (n - 1) step0 (0, 0)).1 := by
    show (searchLoopF f step0 [] [] 0 (n - 1) step0 (0, 0)).2.2.2 = _
    rw [hbest]
    exact (min_range_eq_minIndexOf 3 f _).2
  refine ⟨?_, ?_, ?_, ?_⟩
  · rw [h1]
    exact harg.1
  · rw [h1, h2]
    exact harg.2.1
  · intro t ht
    rw [h1]
    exact harg.2.2.1 t ht
  · intro t ht hft
    rw [h1]
    rw [h1] at hft
    exact harg.2.2.2 t ht hft

/-- C1: for every search run over a non-empty commit sequence (with a
positive initial step, without which the source raises before returning),
the best-match record of find_upstream_commit names the cache entry with
the smallest total_lines metric among every sequence number ever inserted
into the metrics cache during the whole run, ties broken by the lowest
sequence number, and carries that entry's metric value, commit hash and
date. -/
theorem claim_C1_best_match (fetch : String → List (String × String)) (args : Args)
    (repoTree : Nat → List (String × FTree)) (dirTree : List (String × FTree))
    (fuel : Nat) (upstream dir after : String)
    (hne : fetch args.after ≠ []) (hstep : 1 ≤ args.step) :
    (find_upstream_commit fetch args repoTree dirTree fuel upstream dir after).sequence ∈
      (runSearch (metricF repoTree dirTree (fetch args.after) fuel) args.step
        (fetch args.after).length).1 ∧
    (find_upstream_commit fetch args repoTree dirTree fuel upstream dir after).diff =
      metricF repoTree dirTree (fetch args.after) fuel
        (find_upstream_commit fetch args repoTree dirTree fuel upstream dir after).sequence ∧
    (∀ t ∈ (runSearch (metricF repoTree dirTree (fetch args.after) fuel) args.step
        (fetch args.after).length).1,
      metricF repoTree dirTree (fetch args.after) fuel
        (find_upstream_commit fetch args repoTree dirTree fuel upstream dir after).sequence ≤
      metricF repoTree dirTree (fetch args.after) fuel t) ∧
    (∀ t ∈ (runSearch (metricF repoTree dirTree (fetch args.after) fuel) args.step
        (fetch args.after).length).1,
      metricF repoTree dirTree (fetch args.after) fuel t =
        metricF repoTree dirTree (fetch args.after) fuel
          (find_upstream_commit fetch args repoTree dirTree fuel upstream dir after).sequence →
      (find_upstream_commit fetch args repoTree dirTree fuel upstream dir after).sequence ≤ t) ∧
    (find_upstream_commit fetch args repoTree dirTree fuel upstream dir after).hash =
      ((fetch args.after).getD
        (find_upstream_commit fetch args repoTree dirTree fuel upstream dir after).sequence
        ("", "")).1 ∧
    (find_upstream_commit fetch args repoTree dirTree fuel upstream dir after).date =
      ((fetch args.after).getD
        (find_upstream_commit fetch args repoTree dirTree fuel upstream dir after).sequence
        ("", "")).2 := by
  have h := runSearch_best (metricF repoTree dirTree (fetch args.after) fuel)
    args.step (fetch args.after).length hstep
  exact ⟨h.1, h.2.1, h.2.2.1, h.2.2.2, rfl, rfl⟩

/-- Concrete history fetch for witnesses: two commits for any time bound. -/
def wFetch : String → List (String × String) :=
  fun _ => [("h0", "d0"), ("h1", "d1")]

/-- Concrete parsed arguments for witnesses. -/
def wArgs : Args :=
  { after := "2016-01-01", step := 2 }

/-- Concrete checkout map for witnesses: every commit checks out empty. -/
def wRepo : Nat → List (String × FTree) :=
  fun _ => []

theorem claim_C1_best_match_witness :
    (wFetch wArgs.after ≠ [] ∧ 1 ≤ wArgs.step) ∧
    (find_upstream_commit wFetch wArgs wRepo [] 1 "u" "p" "x").sequence ∈
      (runSearch (metricF wRepo [] (wFetch wArgs.after) 1) wArgs.step
        (wFetch wArgs.after).length).1 ∧
    (find_upstream_commit wFetch wArgs wRepo [] 1 "u" "p" "x").diff =
      metricF wRepo [] (wFetch wArgs.after) 1
        (find_upstream_commit wFetch wArgs wRepo [] 1 "u" "p" "x").sequence ∧
    metricF wRepo [] (wFetch wArgs.after) 1
        (find_upstream_commit wFetch wArgs wRepo [] 1 "u" "p" "x").sequence ≤
      metricF wRepo [] (wFetch wArgs.after) 1 1 ∧
    (find_upstream_commit wFetch wArgs wRepo [] 1 "u" "p" "x").hash =
      ((wFetch wArgs.after).getD
        (find_upstream_commit wFetch wArgs wRepo [] 1 "u" "p" "x").sequence ("", "")).1 ∧
    (find_upstream_commit wFetch wArgs wRepo [] 1 "u" "p" "x").date =
      ((wFetch wArgs.after).getD
        (find_upstream_commit wFetch wArgs wRepo [] 1 "u" "p" "x").sequence ("", "")).2 :=
  ⟨⟨by decide, by decide⟩,
   (claim_C1_best_match wFetch wArgs wRepo [] 1 "u" "p" "x" (by decide) (by decide)).1,
   (claim_C1_best_match wFetch wArgs wRepo [] 1 "u" "p" "x" (by decide) (by decide)).2.1,
   (claim_C1_best_match wFetch wArgs wRepo [] 1 "u" "p" "x" (by decide) (by decide)).2.2.1
     1 (by decide),
   (claim_C1_best_match wFetch wArgs wRepo [] 1 "u" "p" "x" (by decide) (by decide)).2.2.2.2.1,
   (claim_C1_best_match wFetch wArgs wRepo [] 1 "u" "p" "x" (by decide) (by decide)).2.2.2.2.2⟩

/-- C10: because find_upstream_commit reads the lower time bound from the
ambient parsed arguments (args.after, diff_test.py line 444) rather than
from its own after parameter, two calls differing only in that parameter,
with everything else held fixed, return the same best-match record. -/
theorem claim_C10_after_ignored (fetch : String → List (String × String))
    (args : Args) (repoTree : Nat → List (String × FTree))
    (dirTree : List (String × FTree)) (fuel : Nat)
    (upstream dir after1 after2 : String) :
    find_upstream_commit fetch args repoTree dirTree fuel upstream dir after1 =
    find_upstream_commit fetch args repoTree dirTree fuel upstream dir after2 :=
  rfl

/-- C5: a sequence number already present in the metrics cache is returned
with no side effect (no checkout, no tree comparison: nothing is logged
and the cache is unchanged); the cache is append-only throughout the
search loop; and the checkout-and-compare log of a whole loop run never
repeats a sequence number. -/
theorem claim_C5_memoized (f : Nat → Nat) (cache log : List Nat) (s : Nat)
    (rest : List Nat) (k left right step : Nat) (best : Nat × Nat) :
    (s ∈ cache → computeRangeAux cache log (s :: rest) = computeRangeAux cache log rest) ∧
    (∀ x ∈ cache, x ∈ (searchLoopF f k cache log left right step best).1) ∧
    ((∀ y ∈ log, y ∈ cache) → log.Nodup →
      (searchLoopF f k cache log left right step best).2.1.Nodup) := by
  refine ⟨?_, ?_, ?_⟩
  · intro h
    simp [computeRangeAux, h]
  · intro x hx
    exact searchLoopF_mono f k cache log left right step best x hx
  · intro hsub hnd
    exact (searchLoopF_log f k cache log left right step best hsub hnd).1

theorem claim_C5_memoized_witness :
    (2 ∈ ([2] : List Nat) ∧
      computeRangeAux [2] [] (2 :: []) = computeRangeAux [2] [] []) ∧
    (0 ∈ (searchLoopF demoLines 1 [0] [] 0 0 1 (0, 0)).1) ∧
    (searchLoopF demoLines 1 [0] [] 0 0 1 (0, 0)).2.1.Nodup :=
  ⟨⟨by decide, (claim_C5_memoized demoLines [2] [] 2 [] 1 0 0 1 (0, 0)).1 (by decide)⟩,
   (claim_C5_memoized demoLines [0] [] 2 [] 1 0 0 1 (0, 0)).2.1 0 (by decide),
   (claim_C5_memoized demoLines [0] [] 2 [] 1 0 0 1 (0, 0)).2.2
     (by simp) (by simp)⟩

/-! ### Convergence on the synthetic unimodal sequence -/

theorem searchLoopF_fuel_irrelevant (f : Nat → Nat) :
    ∀ (k k2 : Nat) (cache log : List Nat) (left right step : Nat) (best : Nat × Nat),
    step ≤ k → step ≤ k2 →
    searchLoopF f k cache log left right step best =
    searchLoopF f k2 cache log left right step best := by
  intro k
  induction k with
  | zero =>
    intro k2 cache log left right step best hk hk2
    have hstep : step = 0 := by omega
    subst hstep
    rw [searchLoopF_zero_step, searchLoopF_zero_step]
  | succ kp ih =>
    intro k2 cache log left right step best hk hk2
    by_cases hs : 1 ≤ step
    · cases k2 with
      | zero => omega
      | succ k2p =>
        simp only [searchLoopF, hs, if_true]
        exact ih k2p _ _ _ _ _ _ (by omega) (by omega)
    · have hstep : step = 0 := by omega
      subst hstep
      rw [searchLoopF_zero_step, searchLoopF_zero_step]

theorem computeRangeAux_cache_log_invariant (todo : List Nat) :
    ∀ (cache log1 log2 : List Nat),
    (computeRangeAux cache log1 todo).1 = (computeRangeAux cache log2 todo).1 := by
  induction todo with
  | nil =>
    intro cache log1 log2
    simp [computeRangeAux]
  | cons s rest ih =>
    intro cache log1 log2
    by_cases h : s ∈ cache
    · simpa [computeRangeAux, h] using ih cache log1 log2
    · simpa [computeRangeAux, h] using
        ih (insertSorted s cache) (log1 ++ [s]) (log2 ++ [s])

theorem searchLoopF_log_invariant (f : Nat → Nat) (k : Nat) :
    ∀ (cache log1 log2 : List Nat) (left right step : Nat) (best : Nat × Nat),
    (searchLoopF f k cache log1 left right step best).1 =
      (searchLoopF f k cache log2 left right step best).1 ∧
    (searchLoopF f k cache log1 left right step best).2.2 =
      (searchLoopF f k cache log2 left right step best).2.2 := by
  induction k with
  | zero =>
    intro cache log1 log2 left right step best
    simp [searchLoopF]
  | succ kp ih =>
    intro cache log1 log2 left right step best
    by_cases hs : 1 ≤ step
    · have hc : (compute_range cache log1 left right step).1 =
          (compute_range cache log2 left right step).1 :=
        computeRangeAux_cache_log_invariant (pyRange left right step ++ [right]) cache log1 log2
      simp only [searchLoopF, hs, if_true]
      rw [hc]
      exact ih (compute_range cache log2 left right step).1
        (compute_range cache log1 left right step).2
        (compute_range cache log2 left right step).2 _ _ _ _
    · simp [searchLoopF, hs]

theorem searchLoopF_best_input_irrelevant (f : Nat → Nat) (k : Nat)
    (cache log : List Nat) (left right step : Nat) (b1 b2 : Nat × Nat)
    (hs : 1 ≤ step) (hk : 1 ≤ k) :
    searchLoopF f k cache log left right step b1 =
    searchLoopF f k cache log left right step b2 := by
  cases k with
  | zero => omega
  | succ kp => simp [searchLoopF, hs]

theorem pyRange_big (s : Nat) (h6 : 6 ≤ s) : pyRange 0 6 s = [0] := by
  rw [pyRange]
  have h1 : 6 - 0 + s - 1 = 5 + s := by omega
  rw [h1, Nat.add_div_right 5 (by omega), Nat.div_eq_of_lt (by omega)]
  have h2 : List.range 1 = [0] := rfl
  simp [h2]

theorem searchLoop_big_step (c : List Nat) (hc : c = [] ∨ c = [0, 6]) (s k : Nat)
    (h6 : 6 ≤ s) (hk : s ≤ k) (lg : List Nat) (b : Nat × Nat) :
    (searchLoopF demoLines k c lg 0 6 s b).2.2 =
    (searchLoopF demoLines (s / 2) [0, 6] [] 0 6 (s / 2) (0, 50)).2.2 := by
  cases k with
  | zero => omega
  | succ kp =>
    have hs : 1 ≤ s := by omega
    have hcr0 : compute_range c lg 0 6 s = computeRangeAux c lg ([0] ++ [6]) := by
      rw [compute_range, pyRange_big s h6]
    have hcr1 : (compute_range c lg 0 6 s).1 = [0, 6] := by
      rw [hcr0]
      rcases hc with h | h <;> subst h <;> simp [computeRangeAux, insertSorted]
    have hmr : min_range 3 demoLines [0, 6] = (0, 6, 0, 50) := by decide
    simp only [searchLoopF, hs, if_true]
    rw [hcr1, hmr]
    have hfi := searchLoopF_fuel_irrelevant demoLines kp (s / 2) [0, 6]
      (compute_range c lg 0 6 s).2 0 6 (s / 2) (0, 50) (by omega) (Nat.le_refl _)
    rw [hfi]
    exact (searchLoopF_log_invariant demoLines (s / 2) [0, 6]
      (compute_range c lg 0 6 s).2 [] 0 6 (s / 2) (0, 50)).2

theorem searchLoop_demo : ∀ (s : Nat), 1 ≤ s → ∀ (c : List Nat),
    (c = [] ∨ c = [0, 6]) → ∀ (k : Nat), s ≤ k → ∀ (lg : List Nat) (b : Nat × Nat),
    (searchLoopF demoLines k c lg 0 6 s b).2.2 = (3, 10) := by
  intro s
  induction s using Nat.strong_induction_on with
  | _ s ih =>
    intro hs c hc k hk lg b
    by_cases hbig : 6 ≤ s
    · rw [searchLoop_big_step c hc s k hbig hk lg b]
      exact ih (s / 2) (by omega) (by omega) [0, 6] (Or.inr rfl) (s / 2)
        (Nat.le_refl _) [] (0, 50)
    · rw [searchLoopF_fuel_irrelevant demoLines k s c lg 0 6 s b hk (Nat.le_refl s)]
      rw [searchLoopF_best_input_irrelevant demoLines s c lg 0 6 s b (0, 0) hs (by omega)]
      rw [(searchLoopF_log_invariant demoLines s c lg [] 0 6 s (0, 0)).2]
      interval_cases s <;> rcases hc with h | h <;> subst h <;> decide

/-- C2: the Convergent Range Search on the synthetic strictly unimodal
total_lines sequence 50, 40, 30, 10, 25, 45, 60 assigned to sequence
numbers 0..6 (a total model, so every run terminates) returns sequence
number 3 with value 10 as the best match, for every initial step >= 1. -/
theorem claim_C2_unimodal (step0 : Nat) (hstep : 1 ≤ step0) :
    (runSearch demoLines step0 7).2.2 = (3, 10) := by
  have h := searchLoop_demo step0 hstep [] (Or.inl rfl) step0 (Nat.le_refl _) [] (0, 0)
  simpa [runSearch] using h

theorem claim_C2_unimodal_witness :
    1 ≤ 4 ∧ (runSearch demoLines 4 7).2.2 = (3, 10) :=
  ⟨by decide, claim_C2_unimodal 4 (by decide)⟩

/-! ### The buffer capacity of min_range: an off-by-one against the spec -/

theorem minRangeStep_len {L : Nat} {f : Nat → Nat} {st : List Nat × List Nat}
    {s : Nat} (h : st.1.length ≤ L + 1) :
    (minRangeStep L f st s).1.length ≤ L + 1 := by
  by_cases hroom : st.1.length ≤ L
  · simpa [minRangeStep, hroom] using Nat.succ_le_succ hroom
  · have hne1 : st.1 ≠ [] := by
      intro hcon
      rw [hcon] at hroom
      simp at hroom
    have hli : pyIndexOf (listMax st.1) st.1 < st.1.length :=
      pyIndexOf_lt_length (listMax_mem st.1 hne1)
    by_cases hsmall : f s < listMax st.1
    · have : (minRangeStep L f st s).1.length = st.1.length := by
        simp [minRangeStep, hroom, hsmall, List.length_eraseIdx, hli]
        omega
      omega
    · simpa [minRangeStep, hroom, hsmall] using h

theorem minRangeFold_len (L : Nat) (f : Nat → Nat) :
    ∀ (todo : List Nat) (st : List Nat × List Nat), st.1.length ≤ L + 1 →
    (todo.foldl (minRangeStep L f) st).1.length ≤ L + 1 := by
  intro todo
  induction todo with
  | nil =>
    intro st h
    simpa using h
  | cons t ts ih =>
    intro st h
    exact ih (minRangeStep L f st t) (minRangeStep_len h)

/-- C3 as amended: with capacity argument 3 the buffer loop of min_range
appends while the buffer has at most 3 entries, so the buffer holds up to
four (length + 1) entries, never more; once it holds four, a new sample
enters only when strictly below the buffer's current maximum, evicting the
first entry holding that maximum. -/
theorem claim_C3_buffer (f : Nat → Nat) (seqs : List Nat) :
    ((minRangeFold 3 f seqs).1.length ≤ 4) ∧
    (∀ (st : List Nat × List Nat) (s : Nat), st.1.length ≤ 3 →
      minRangeStep 3 f st s = (st.1 ++ [f s], st.2 ++ [s])) ∧
    (∀ (st : List Nat × List Nat) (s : Nat), 3 < st.1.length →
      f s < listMax st.1 →
      minRangeStep 3 f st s =
        (st.1.eraseIdx (pyIndexOf (listMax st.1) st.1) ++ [f s],
         st.2.eraseIdx (pyIndexOf (listMax st.1) st.1) ++ [s])) ∧
    (∀ (st : List Nat × List Nat) (s : Nat), 3 < st.1.length →
      ¬ f s < listMax st.1 → minRangeStep 3 f st s = st) := by
  refine ⟨?_, ?_, ?_, ?_⟩
  · exact minRangeFold_len 3 f seqs ([], []) (by simp)
  · intro st s h
    simp [minRangeStep, h]
  · intro st s h hsmall
    have hroom : ¬ st.1.length ≤ 3 := by omega
    simp [minRangeStep, hroom, hsmall]
  · intro st s h hsmall
    have hroom : ¬ st.1.length ≤ 3 := by omega
    simp [minRangeStep, hroom, hsmall]

/-- C3 counterexample to the claim as stated: with capacity argument 3 the
source condition len(values) <= length admits a fourth append, so on the
cache 0,1,2,3 with the identity metric the buffer ends the loop holding
four entries, not at most three. -/
theorem claim_C3_counterexample :
    ¬ ((minRangeFold 3 (fun n => n) [0, 1, 2, 3]).1.length ≤ 3) := by decide

theorem claim_C3_buffer_witness :
    (minRangeFold 3 demoLines [0, 2, 4, 5, 6]).1.length ≤ 4 ∧
    (([50], [0]) : List Nat × List Nat).1.length ≤ 3 ∧
    minRangeStep 3 demoLines (([50], [0]) : List Nat × List Nat) 1 =
      ([50, 40], [0, 1]) :=
  ⟨(claim_C3_buffer demoLines [0, 2, 4, 5, 6]).1,
   by decide,
   (claim_C3_buffer demoLines []).2.1 ([50], [0]) 1 (by decide)⟩

/-! ### The window bounds returned by min_range -/

theorem headD_mem {l : List Nat} (h : l ≠ []) : l.headD 0 ∈ l := by
  cases l with
  | nil => exact absurd rfl h
  | cons a t => simp

theorem getLastD_mem {l : List Nat} (h : l ≠ []) : l.getLastD 0 ∈ l := by
  induction l with
  | nil => exact absurd rfl h
  | cons a t ih =>
    cases t with
    | nil => simp
    | cons b t2 =>
      have := ih (by simp)
      simp [List.getLastD_cons]
      right
      simpa [List.getLastD_cons] using this

theorem sorted_headD_le {l : List Nat} (hs : List.Sorted (· < ·) l) :
    ∀ x ∈ l, l.headD 0 ≤ x := by
  cases l with
  | nil => intro x hx; cases hx
  | cons a t =>
    intro x hx
    rcases List.mem_cons.mp hx with h | h
    · simp [h]
    · simpa using Nat.le_of_lt ((List.sorted_cons.mp hs).1 x h)

theorem getLastD_cons_of_ne_nil {a : Nat} {l : List Nat} (h : l ≠ []) :
    (a :: l).getLastD 0 = l.getLastD 0 := by
  cases l with
  | nil => exact absurd rfl h
  | cons b t => simp [List.getLastD_cons]

theorem le_sorted_getLastD {l : List Nat} (hs : List.Sorted (· < ·) l) :
    ∀ x ∈ l, x ≤ l.getLastD 0 := by
  induction l with
  | nil => intro x hx; cases hx
  | cons a t ih =>
    intro x hx
    cases t with
    | nil =>
      simp at hx
      simp [hx]
    | cons b t2 =>
      rw [getLastD_cons_of_ne_nil (by simp)]
      rcases List.mem_cons.mp hx with h | h
      · subst h
        have h1 : (b :: t2).getLastD 0 ∈ b :: t2 := getLastD_mem (by simp)
        exact Nat.le_of_lt ((List.sorted_cons.mp hs).1 _ h1)
      · exact ih (List.sorted_cons.mp hs).2 x h
  

theorem headD_eq_getD {l : List Nat} : l.headD 0 = l.getD 0 0 := by
  cases l with
  | nil => rfl
  | cons a t => rfl

theorem getLastD_eq_getD {l : List Nat} (h : l ≠ []) :
    l.getLastD 0 = l.getD (l.length - 1) 0 := by
  induction l with
  | nil => exact absurd rfl h
  | cons a t ih =>
    cases t with
    | nil => rfl
    | cons b t2 =>
      rw [getLastD_cons_of_ne_nil (by simp)]
      rw [ih (by simp)]
      simp

theorem sorted_pred_getD {sc : List Nat} (hs : List.Sorted (· < ·) sc)
    {a : Nat} (ha : a ∈ sc) (hlt : sc.headD 0 < a) :
    sc.getD (pyIndexOf a sc - 1) 0 ∈ sc ∧
    sc.getD (pyIndexOf a sc - 1) 0 < a ∧
    ∀ x ∈ sc, x < a → x ≤ sc.getD (pyIndexOf a sc - 1) 0 := by
  have hi : pyIndexOf a sc < sc.length := pyIndexOf_lt_length ha
  have hget : sc.getD (pyIndexOf a sc) 0 = a := getD_pyIndexOf ha 0
  have h1 : 1 ≤ pyIndexOf a sc := by
    by_contra hcon
    have h0 : pyIndexOf a sc = 0 := by omega
    rw [h0] at hget
    rw [headD_eq_getD, hget] at hlt
    omega
  have hpredlt : sc.getD (pyIndexOf a sc - 1) 0 < a := by
    have h2 := sorted_getD_lt hs
      (show pyIndexOf a sc - 1 < sc.length by omega) hi (by omega)
    rw [hget] at h2
    exact h2
  refine ⟨getD_mem (by omega), hpredlt, ?_⟩
  intro x hx hxa
  obtain ⟨j, hj, hgj⟩ := mem_getD_index hx
  have hjlt : j < pyIndexOf a sc := by
    by_contra hcon
    have hge : pyIndexOf a sc ≤ j := by omega
    rcases Nat.eq_or_lt_of_le hge with heq | hlt2
    · rw [← heq, hget] at hgj
      omega
    · have := sorted_getD_lt hs hi hj hlt2
      rw [hget, hgj] at this
      omega
  rcases Nat.eq_or_lt_of_le (Nat.le_of_lt_succ (by omega : j < (pyIndexOf a sc - 1) + 1))
    with heq | hlt2
  · rw [heq] at hgj
    omega
  · have := sorted_getD_lt hs hj (show pyIndexOf a sc - 1 < sc.length by omega) hlt2
    omega

theorem sorted_succ_getD {sc : List Nat} (hs : List.Sorted (· < ·) sc)
    {a : Nat} (ha : a ∈ sc) (hlt : a < sc.getLastD 0) :
    sc.getD (pyIndexOf a sc + 1) 0 ∈ sc ∧
    a < sc.getD (pyIndexOf a sc + 1) 0 ∧
    ∀ x ∈ sc, a < x → sc.getD (pyIndexOf a sc + 1) 0 ≤ x := by
  have hi : pyIndexOf a sc < sc.length := pyIndexOf_lt_length ha
  have hget : sc.getD (pyIndexOf a sc) 0 = a := getD_pyIndexOf ha 0
  have hscne : sc ≠ [] := List.ne_nil_of_mem ha
  have hne_last : pyIndexOf a sc ≠ sc.length - 1 := by
    intro hcon
    rw [getLastD_eq_getD hscne, ← hcon, hget] at hlt
    omega
  have hi1 : pyIndexOf a sc + 1 < sc.length := by omega
  have hsucc_gt : a < sc.getD (pyIndexOf a sc + 1) 0 := by
    have := sorted_getD_lt hs hi hi1 (by omega)
    rw [hget] at this
    exact this
  refine ⟨getD_mem hi1, hsucc_gt, ?_⟩
  intro x hx hax
  obtain ⟨j, hj, hgj⟩ := mem_getD_index hx
  have hjgt : pyIndexOf a sc < j := by
    by_contra hcon
    have hle : j ≤ pyIndexOf a sc := by omega
    rcases Nat.eq_or_lt_of_le hle with heq | hlt2
    · rw [heq, hget] at hgj
      omega
    · have := sorted_getD_lt hs hj hi hlt2
      rw [hget, hgj] at this
      omega
  rcases Nat.eq_or_lt_of_le (by omega : pyIndexOf a sc + 1 ≤ j) with heq | hlt2
  · rw [heq]
    omega
  · have := sorted_getD_lt hs hi1 hj hlt2
    omega

theorem headD_append_left {l l2 : List Nat} (h : l ≠ []) :
    (l ++ l2).headD 0 = l.headD 0 := by
  cases l with
  | nil => exact absurd rfl h
  | cons a t => rfl

theorem getLastD_append_single {l : List Nat} {x : Nat} :
    (l ++ [x]).getLastD 0 = x := by
  induction l with
  | nil => rfl
  | cons a t ih =>
    cases t with
    | nil => rfl
    | cons b t2 =>
      rw [List.cons_append, getLastD_cons_of_ne_nil (by simp)]
      exact ih

theorem min_range_bounds (L : Nat) (f : Nat → Nat) (cache : List Nat)
    (hbufne : (minRangeFold L f cache).2 ≠ []) :
    (min_range L f cache).1 =
      (if cache.headD 0 < (minRangeFold L f cache).2.headD 0 then
        cache.getD (pyIndexOf ((minRangeFold L f cache).2.headD 0) cache - 1) 0
       else (minRangeFold L f cache).2.headD 0) ∧
    (min_range L f cache).2.1 =
      (if (minRangeFold L f cache).2.getLastD 0 < cache.getLastD 0 then
        cache.getD (pyIndexOf ((minRangeFold L f cache).2.getLastD 0) cache + 1) 0
       else (minRangeFold L f cache).2.getLastD 0) := by
  constructor
  · show (min_range L f cache).1 = _
    simp only [min_range]
    by_cases c1 : cache.headD 0 < (minRangeFold L f cache).2.headD 0
    · simp only [c1, if_true]
      split_ifs <;> rfl
    · simp only [c1, if_false]
      split_ifs with c2
      · exact headD_append_left hbufne
      · rfl
  · show (min_range L f cache).2.1 = _
    simp only [min_range]
    by_cases c1 : cache.headD 0 < (minRangeFold L f cache).2.headD 0
    · simp only [c1, if_true]
      rw [getLastD_cons_of_ne_nil hbufne]
      split_ifs with c2
      · exact getLastD_append_single
      · exact getLastD_cons_of_ne_nil hbufne
    · simp only [c1, if_false]
      split_ifs with c2
      · exact getLastD_append_single
      · rfl

/-- C4: over a non-empty cache, the buffer's first index is its minimum and
its last its maximum; the returned left bound is that minimum, replaced by
the nearest cached sequence number below it exactly when the minimum is not
the smallest cached one, and symmetrically the returned right bound is the
buffer maximum, replaced by the nearest cached sequence number above it
exactly when that maximum is not the largest cached one. -/
theorem claim_C4_bounds (L : Nat) (f : Nat → Nat) (cache : List Nat)
    (hs : List.Sorted (· < ·) cache) (hne : cache ≠ []) :
    (∀ x ∈ (minRangeFold L f cache).2,
      (minRangeFold L f cache).2.headD 0 ≤ x ∧
      x ≤ (minRangeFold L f cache).2.getLastD 0) ∧
    ((minRangeFold L f cache).2.headD 0 = cache.headD 0 →
      (min_range L f cache).1 = (minRangeFold L f cache).2.headD 0) ∧
    ((minRangeFold L f cache).2.headD 0 ≠ cache.headD 0 →
      (min_range L f cache).1 ∈ cache ∧
      (min_range L f cache).1 < (minRangeFold L f cache).2.headD 0 ∧
      ∀ x ∈ cache, x < (minRangeFold L f cache).2.headD 0 →
        x ≤ (min_range L f cache).1) ∧
    ((minRangeFold L f cache).2.getLastD 0 = cache.getLastD 0 →
      (min_range L f cache).2.1 = (minRangeFold L f cache).2.getLastD 0) ∧
    ((minRangeFold L f cache).2.getLastD 0 ≠ cache.getLastD 0 →
      (min_range L f cache).2.1 ∈ cache ∧
      (minRangeFold L f cache).2.getLastD 0 < (min_range L f cache).2.1 ∧
      ∀ x ∈ cache, (minRangeFold L f cache).2.getLastD 0 < x →
        (min_range L f cache).2.1 ≤ x) := by
  obtain ⟨hmap, hsort, hsub, hlen, hminv⟩ := bufInv_init L f cache hs
  obtain ⟨m, hmmem, hmle, hmtie⟩ := hminv hne
  have hbufne : (minRangeFold L f cache).2 ≠ [] := List.ne_nil_of_mem hmmem
  have hbounds := min_range_bounds L f cache hbufne
  have hbmin_mem : (minRangeFold L f cache).2.headD 0 ∈ (minRangeFold L f cache).2 :=
    headD_mem hbufne
  have hbmax_mem : (minRangeFold L f cache).2.getLastD 0 ∈ (minRangeFold L f cache).2 :=
    getLastD_mem hbufne
  have hbmin_cache : (minRangeFold L f cache).2.headD 0 ∈ cache := hsub _ hbmin_mem
  have hbmax_cache : (minRangeFold L f cache).2.getLastD 0 ∈ cache := hsub _ hbmax_mem
  have hhead_le : cache.headD 0 ≤ (minRangeFold L f cache).2.headD 0 :=
    sorted_headD_le hs _ hbmin_cache
  have hlast_ge : (minRangeFold L f cache).2.getLastD 0 ≤ cache.getLastD 0 :=
    le_sorted_getLastD hs _ hbmax_cache
  refine ⟨?_, ?_, ?_, ?_, ?_⟩
  · intro x hx
    exact ⟨sorted_headD_le hsort x hx, le_sorted_getLastD hsort x hx⟩
  · intro heq
    have c1 : ¬ cache.headD 0 < (minRangeFold L f cache).2.headD 0 := by omega
    rw [hbounds.1, if_neg c1]
  · intro hneq
    have c1 : cache.headD 0 < (minRangeFold L f cache).2.headD 0 := by
      rcases Nat.eq_or_lt_of_le hhead_le with h | h
      · exact absurd h.symm hneq
      · exact h
    have hpred := sorted_pred_getD hs hbmin_cache c1
    rw [hbounds.1, if_pos c1]
    exact hpred
  · intro heq
    have c2 : ¬ (minRangeFold L f cache).2.getLastD 0 < cache.getLastD 0 := by omega
    rw [hbounds.2, if_neg c2]
  · intro hneq
    have c2 : (minRangeFold L f cache).2.getLastD 0 < cache.getLastD 0 := by
      rcases Nat.eq_or_lt_of_le hlast_ge with h | h
      · exact absurd h hneq
      · exact h
    have hsucc := sorted_succ_getD hs hbmax_cache c2
    rw [hbounds.2, if_pos c2]
    exact hsucc

theorem claim_C4_bounds_witness :
    (List.Sorted (· < ·) [0, 2, 4, 5, 6] ∧ ([0, 2, 4, 5, 6] : List Nat) ≠ []) ∧
    ((minRangeFold 3 demoLines [0, 2, 4, 5, 6]).2.headD 0 ≤ 4 ∧
      4 ≤ (minRangeFold 3 demoLines [0, 2, 4, 5, 6]).2.getLastD 0) ∧
    (min_range 3 demoLines [0, 2, 4, 5, 6]).1 =
      (minRangeFold 3 demoLines [0, 2, 4, 5, 6]).2.headD 0 ∧
    (min_range 3 demoLines [0, 2, 4, 5, 6]).2.1 ∈ ([0, 2, 4, 5, 6] : List Nat) ∧
    (minRangeFold 3 demoLines [0, 2, 4, 5, 6]).2.getLastD 0 <
      (min_range 3 demoLines [0, 2, 4, 5, 6]).2.1 ∧
    (min_range 3 demoLines [0, 2, 4, 5, 6]).2.1 ≤ 6 :=
  ⟨⟨by decide, by decide⟩,
   (claim_C4_bounds 3 demoLines [0, 2, 4, 5, 6] (by decide) (by decide)).1 4 (by decide),
   (claim_C4_bounds 3 demoLines [0, 2, 4, 5, 6] (by decide) (by decide)).2.1 (by decide),
   ((claim_C4_bounds 3 demoLines [0, 2, 4, 5, 6] (by decide) (by decide)).2.2.2.2
     (by decide)).1,
   ((claim_C4_bounds 3 demoLines [0, 2, 4, 5, 6] (by decide) (by decide)).2.2.2.2
     (by decide)).2.1,
   ((claim_C4_bounds 3 demoLines [0, 2, 4, 5, 6] (by decide) (by decide)).2.2.2.2
     (by decide)).2.2 6 (by decide) (by decide)⟩

/-! ### The tree comparator on identical and near-identical trees -/

/-- No duplicate names in a listing (Boolean, first-order). -/
def nodupB : List String → Bool
  | [] => true
  | x :: xs => !(xs.contains x) && nodupB xs

/-- Well-formedness of a directory listing to the given depth: names are
unique at every level, as they are in a real filesystem directory. -/
def wfEntriesB : Nat → List (String × FTree) → Bool
  | 0, _ => true
  | k + 1, es =>
    nodupB (namesOf es) &&
    es.all (fun e =>
      match e.2 with
      | FTree.file _ => true
      | FTree.dir ces => wfEntriesB k ces)

theorem lookup_self {es : List (String × FTree)} {n : String} {t : FTree}
    (hnodup : nodupB (namesOf es) = true) (hmem : (n, t) ∈ es) :
    lookupTree n es = some t := by
  induction es with
  | nil => cases hmem
  | cons e0 rest ih =>
    obtain ⟨n0, t0⟩ := e0
    have hnames : namesOf ((n0, t0) :: rest) = n0 :: namesOf rest := rfl
    rw [hnames] at hnodup
    simp only [nodupB, Bool.and_eq_true] at hnodup
    obtain ⟨hnotin, hnd⟩ := hnodup
    rcases List.mem_cons.mp hmem with h1 | h1
    · rw [← h1]
      simp [lookupTree]
    · have hn_in : n ∈ namesOf rest := by
        have := List.mem_map_of_mem Prod.fst h1
        simpa [namesOf] using this
      have hne : n0 ≠ n := by
        intro hcon
        subst hcon
        have : (namesOf rest).contains n0 = true := by
          simpa [List.elem_iff] using hn_in
        rw [this] at hnotin
        simp at hnotin
      have hbeq : (n0 == n) = false := beq_eq_false_iff_ne.mpr hne
      have hstep : lookupTree n ((n0, t0) :: rest) = lookupTree n rest := by
        simp [lookupTree, List.find?, hbeq]
      rw [hstep]
      exact ih hnd h1

theorem lcsDiffF_self : ∀ (ls : List String) (k : Nat), ls.length ≤ k →
    lcsDiffF k ls ls = ls.map DiffLine.common := by
  intro ls
  induction ls with
  | nil =>
    intro k hk
    cases k <;> rfl
  | cons x xs ih =>
    intro k hk
    cases k with
    | zero => simp at hk
    | succ kp =>
      simp only [lcsDiffF, if_pos rfl]
      rw [ih kp (by simpa using hk)]
      rfl

theorem compare_files_self (ls : List String) : compare_files ls ls = (0, 0, 0) := by
  have h := lcsDiffF_self ls (ls.length + ls.length) (by omega)
  have h1 : (ls.map DiffLine.common).filter DiffLine.isAdded = [] := by
    refine List.filter_eq_nil_iff.mpr ?_
    intro a ha
    obtain ⟨s, hs, hsa⟩ := List.mem_map.mp ha
    rw [← hsa]
    simp [DiffLine.isAdded]
  have h2 : (ls.map DiffLine.common).filter DiffLine.isRemoved = [] := by
    refine List.filter_eq_nil_iff.mpr ?_
    intro a ha
    obtain ⟨s, hs, hsa⟩ := List.mem_map.mp ha
    rw [← hsa]
    simp [DiffLine.isRemoved]
  simp [compare_files, h, h1, h2]

theorem count_common_self : ∀ (pairs : List (List String × List String)),
    (∀ p ∈ pairs, p.1 = p.2) → count_common pairs = (0, 0, 0) := by
  have haux : ∀ (pairs : List (List String × List String)) (acc : Nat × Nat × Nat),
      (∀ p ∈ pairs, p.1 = p.2) →
      pairs.foldl (fun acc p =>
        let c := compare_files p.1 p.2
        (acc.1 + c.1, acc.2.1 + c.2.1, acc.2.2 + c.2.2)) acc = acc := by
    intro pairs
    induction pairs with
    | nil =>
      intro acc h
      rfl
    | cons p rest ih =>
      intro acc h
      rw [List.foldl_cons]
      have hp : compare_files p.1 p.2 = (0, 0, 0) := by
        have h1 := h p (by simp)
        rw [← h1]
        exact compare_files_self p.1
      have hstep : (let c := compare_files p.1 p.2
          ((acc.1 + c.1, acc.2.1 + c.2.1, acc.2.2 + c.2.2) : Nat × Nat × Nat)) = acc := by
        simp [hp]
      rw [hstep]
      exact ih acc (fun q hq => h q (by simp [hq]))
  intro pairs h
  exact haux pairs (0, 0, 0) h

theorem foldl_addMetrics_zero {α : Type} : ∀ (l : List α) (basem : DiffMetrics)
    (g : α → DiffMetrics), (∀ p ∈ l, g p = zeroMetrics) →
    l.foldl (fun acc p => addMetrics acc (g p)) basem = basem := by
  intro l
  induction l with
  | nil =>
    intro basem g h
    rfl
  | cons p rest ih =>
    intro basem g h
    rw [List.foldl_cons]
    have h1 : addMetrics basem (g p) = basem := by
      rw [h p (by simp)]
      cases basem
      simp [addMetrics, zeroMetrics]
    rw [h1]
    exact ih basem g (fun q hq => h q (by simp [hq]))

theorem compare_dirs_self (fuel : Nat) : ∀ (es : List (String × FTree)),
    wfEntriesB fuel es = true → compare_dirs fuel es es = zeroMetrics := by
  induction fuel with
  | zero =>
    intro es _
    rfl
  | succ k ih =>
    intro es hwf
    simp only [wfEntriesB, Bool.and_eq_true, List.all_eq_true] at hwf
    obtain ⟨hnodup, hall⟩ := hwf
    have hlo : es.filter (fun e => decide (e.1 ∉ namesOf es)) = [] := by
      refine List.filter_eq_nil_iff.mpr ?_
      intro e he
      simp only [decide_eq_true_eq, Decidable.not_not]
      exact List.mem_map_of_mem Prod.fst he
    have hfile_pairs : es.filterMap (commonFilePair es) =
        es.filterMap (fun e =>
          match e.2 with
          | FTree.file ls => some (ls, ls)
          | FTree.dir _ => none) := by
      apply List.filterMap_congr
      intro e he
      obtain ⟨n, t⟩ := e
      have hl : lookupTree n es = some t := lookup_self hnodup he
      cases t with
      | file ls => simp [commonFilePair, hl]
      | dir ces => simp [commonFilePair, hl]
    have hall_self : ∀ p ∈ es.filterMap (fun e =>
        match e.2 with
        | FTree.file ls => some (ls, ls)
        | FTree.dir _ => none), p.1 = p.2 := by
      intro p hp
      obtain ⟨e, he, hpe⟩ := List.mem_filterMap.mp hp
      obtain ⟨n, t⟩ := e
      cases t with
      | file ls =>
        simp at hpe
        rw [← hpe]
      | dir ces => simp at hpe
    have hcc : count_common (es.filterMap (commonFilePair es)) = (0, 0, 0) := by
      rw [hfile_pairs]
      exact count_common_self _ hall_self
    have hdir_pairs : ∀ p ∈ es.filterMap (commonDirPair es),
        compare_dirs k p.1 p.2 = zeroMetrics := by
      intro p hp
      obtain ⟨e, he, hpe⟩ := List.mem_filterMap.mp hp
      obtain ⟨n, t⟩ := e
      have hl : lookupTree n es = some t := lookup_self hnodup he
      cases t with
      | file ls => simp [commonDirPair, hl] at hpe
      | dir ces =>
        simp [commonDirPair, hl] at hpe
        have hwfc : wfEntriesB k ces = true := by
          have := hall (n, FTree.dir ces) he
          simpa using this
        rw [← hpe]
        exact ih ces hwfc
    show compare_dirs (k + 1) es es = zeroMetrics
    simp only [compare_dirs]
    rw [hlo, hcc]
    rw [foldl_addMetrics_zero (es.filterMap (commonDirPair es)) _
      (fun p => compare_dirs k p.1 p.2) hdir_pairs]
    rfl

/-- C8: the tree comparator returns the all-zero metrics record on every
pair of identical directory trees (well-formed: no duplicate names at any
level, as in a real directory listing; fuel bounds the recursion depth). -/
theorem claim_C8_identical_zero (fuel : Nat) (es : List (String × FTree))
    (hwf : wfEntriesB fuel es = true) :
    compare_dirs fuel es es = zeroMetrics :=
  compare_dirs_self fuel es hwf

/-- Concrete directory listing for witnesses: a file and a subdirectory. -/
def wTree : List (String × FTree) :=
  [("a.txt", FTree.file ["1\n", "2\n"]),
   ("sub", FTree.dir [("g.txt", FTree.file ["x\n"])])]

theorem claim_C8_identical_zero_witness :
    wfEntriesB 2 wTree = true ∧ compare_dirs 2 wTree wTree = zeroMetrics :=
  ⟨by decide, claim_C8_identical_zero 2 wTree (by decide)⟩

/-- C6: the line differ flags two files as different exactly when the plus
and minus line counts are not both zero, and on the files with lines
a, b, c and a, x, c it returns the flag 1 with one line added and one line
removed (the source returns the integer 1 for True). -/
theorem claim_C6_line_differ (l r : List String) :
    ((compare_files l r).1 = 1 ↔
      0 < (compare_files l r).2.1 + (compare_files l r).2.2) ∧
    compare_files ["a\n", "b\n", "c\n"] ["a\n", "x\n", "c\n"] = (1, 1, 1) := by
  constructor
  · simp only [compare_files]
    by_cases h : 0 < ((lcsDiffF (l.length + r.length) l r).filter DiffLine.isAdded).length +
        ((lcsDiffF (l.length + r.length) l r).filter DiffLine.isRemoved).length
    · simp [h]
    · simp [h]
  · decide

/-- C7: every commit-level metrics record carries total_files equal to
left_files + right_files + diff_files and total_lines equal to
left_lines + right_lines + added_lines + removed_lines (the source attaches
the totals as exactly these sums after the recursive aggregation), and
every field is non-negative (counts live in Nat). -/
theorem claim_C7_totals (repoTree : Nat → List (String × FTree))
    (dirTree : List (String × FTree)) (commits : List (String × String))
    (fuel commit_no : Nat) :
    (compute_metrics repoTree dirTree commits fuel commit_no).total_files =
      (compute_metrics repoTree dirTree commits fuel commit_no).left_files +
      (compute_metrics repoTree dirTree commits fuel commit_no).right_files +
      (compute_metrics repoTree dirTree commits fuel commit_no).diff_files ∧
    (compute_metrics repoTree dirTree commits fuel commit_no).total_lines =
      (compute_metrics repoTree dirTree commits fuel commit_no).left_lines +
      (compute_metrics repoTree dirTree commits fuel commit_no).right_lines +
      (compute_metrics repoTree dirTree commits fuel commit_no).added_lines +
      (compute_metrics repoTree dirTree commits fuel commit_no).removed_lines ∧
    0 ≤ (compute_metrics repoTree dirTree commits fuel commit_no).left_files ∧
    0 ≤ (compute_metrics repoTree dirTree commits fuel commit_no).right_files ∧
    0 ≤ (compute_metrics repoTree dirTree commits fuel commit_no).diff_files ∧
    0 ≤ (compute_metrics repoTree dirTree commits fuel commit_no).left_lines ∧
    0 ≤ (compute_metrics repoTree dirTree commits fuel commit_no).right_lines ∧
    0 ≤ (compute_metrics repoTree dirTree commits fuel commit_no).added_lines ∧
    0 ≤ (compute_metrics repoTree dirTree commits fuel commit_no).removed_lines :=
  ⟨rfl, rfl, Nat.zero_le _, Nat.zero_le _, Nat.zero_le _, Nat.zero_le _,
   Nat.zero_le _, Nat.zero_le _, Nat.zero_le _⟩

/-! ### One added file on one side only -/

theorem lookupTree_append_of_mem {es l2 : List (String × FTree)} {n : String}
    (h : n ∈ namesOf es) : lookupTree n (es ++ l2) = lookupTree n es := by
  have hex : ∃ e ∈ es, (fun e : String × FTree => e.1 == n) e = true := by
    obtain ⟨e, he, hfst⟩ := List.mem_map.mp h
    exact ⟨e, he, by simp [hfst]⟩
  have hsome := List.find?_isSome.mpr hex
  obtain ⟨v, hv⟩ := Option.isSome_iff_exists.mp hsome
  rw [lookupTree, lookupTree, List.find?_append, hv]
  rfl

theorem lookupTree_eq_none {es : List (String × FTree)} {n : String}
    (h : n ∉ namesOf es) : lookupTree n es = none := by
  rw [lookupTree]
  have hfind : List.find? (fun e : String × FTree => e.1 == n) es = none := by
    refine List.find?_eq_none.mpr ?_
    intro e he hcon
    have h1 : e.1 = n := by simpa using hcon
    exact h (h1 ▸ List.mem_map_of_mem Prod.fst he)
  rw [hfind]
  rfl

theorem count_unique_snd : ∀ (es : List (String × FTree)),
    (count_unique es).2 = (es.map entryLines).sum := by
  have haux : ∀ (es : List (String × FTree)) (acc : Nat),
      es.foldl (fun a e => a + entryLines e) acc = acc + (es.map entryLines).sum := by
    intro es
    induction es with
    | nil =>
      intro acc
      simp
    | cons e rest ih =>
      intro acc
      rw [List.foldl_cons, ih]
      simp [Nat.add_assoc]
  intro es
  have := haux es 0
  simpa [count_unique] using this

/-- C9: if the right tree is the left tree with one extra regular file of L
lines (fresh name, well-formed left tree), the comparator returns
right_files = 1 and right_lines = L with all other fields zero, and
symmetrically left_files / left_lines when the file is only on the left;
and in general count_unique counts every entry, file or directory, once,
while only regular files contribute their line counts. -/
theorem claim_C9_unique_file (fuel : Nat) (es : List (String × FTree))
    (n : String) (ls : List String)
    (hwf : wfEntriesB (fuel + 1) es = true) (hn : n ∉ namesOf es) :
    compare_dirs (fuel + 1) es (es ++ [(n, FTree.file ls)]) =
      ⟨0, 1, 0, 0, ls.length, 0, 0⟩ ∧
    compare_dirs (fuel + 1) (es ++ [(n, FTree.file ls)]) es =
      ⟨1, 0, 0, ls.length, 0, 0, 0⟩ ∧
    ∀ (es2 : List (String × FTree)),
      (count_unique es2).1 = es2.length ∧
      (count_unique es2).2 = (es2.map entryLines).sum := by
  simp only [wfEntriesB, Bool.and_eq_true, List.all_eq_true] at hwf
  obtain ⟨hnodup, hall⟩ := hwf
  have hnames : namesOf (es ++ [(n, FTree.file ls)]) = namesOf es ++ [n] := by
    simp [namesOf]
  have h_lo : es.filter
      (fun e => decide (e.1 ∉ namesOf (es ++ [(n, FTree.file ls)]))) = [] := by
    refine List.filter_eq_nil_iff.mpr ?_
    intro e he
    simp only [decide_eq_true_eq, Decidable.not_not]
    rw [hnames]
    exact List.mem_append.mpr (Or.inl (List.mem_map_of_mem Prod.fst he))
  have h_ro : (es ++ [(n, FTree.file ls)]).filter
      (fun e => decide (e.1 ∉ namesOf es)) = [(n, FTree.file ls)] := by
    rw [List.filter_append]
    have h1 : es.filter (fun e => decide (e.1 ∉ namesOf es)) = [] := by
      refine List.filter_eq_nil_iff.mpr ?_
      intro e he
      simp only [decide_eq_true_eq, Decidable.not_not]
      exact List.mem_map_of_mem Prod.fst he
    have h2 : ([(n, FTree.file ls)] : List (String × FTree)).filter
        (fun e => decide (e.1 ∉ namesOf es)) = [(n, FTree.file ls)] := by
      simp [hn]
    rw [h1, h2]
    rfl
  have h_fp : es.filterMap (commonFilePair (es ++ [(n, FTree.file ls)])) =
      es.filterMap (fun e =>
        match e.2 with
        | FTree.file fs => some (fs, fs)
        | FTree.dir _ => none) := by
    apply List.filterMap_congr
    intro e he
    obtain ⟨n2, t⟩ := e
    have hmemname : n2 ∈ namesOf es := List.mem_map_of_mem Prod.fst he
    have hl : lookupTree n2 (es ++ [(n, FTree.file ls)]) = lookupTree n2 es :=
      lookupTree_append_of_mem hmemname
    have hl2 : lookupTree n2 es = some t := lookup_self hnodup he
    cases t with
    | file fs => simp [commonFilePair, hl, hl2]
    | dir ces => simp [commonFilePair, hl, hl2]
  have h_self : ∀ p ∈ es.filterMap (fun e =>
      match e.2 with
      | FTree.file fs => some (fs, fs)
      | FTree.dir _ => none), p.1 = p.2 := by
    intro p hp
    obtain ⟨e, he, hpe⟩ := List.mem_filterMap.mp hp
    obtain ⟨n2, t⟩ := e
    cases t with
    | file fs =>
      simp at hpe
      rw [← hpe]
    | dir ces => simp at hpe
  have h_cc : count_common
      (es.filterMap (commonFilePair (es ++ [(n, FTree.file ls)]))) = (0, 0, 0) := by
    rw [h_fp]
    exact count_common_self _ h_self
  have h_sub : ∀ p ∈ es.filterMap (commonDirPair (es ++ [(n, FTree.file ls)])),
      compare_dirs fuel p.1 p.2 = zeroMetrics := by
    intro p hp
    obtain ⟨e, he, hpe⟩ := List.mem_filterMap.mp hp
    obtain ⟨n2, t⟩ := e
    have hmemname : n2 ∈ namesOf es := List.mem_map_of_mem Prod.fst he
    have hl : lookupTree n2 (es ++ [(n, FTree.file ls)]) = lookupTree n2 es :=
      lookupTree_append_of_mem hmemname
    have hl2 : lookupTree n2 es = some t := lookup_self hnodup he
    cases t with
    | file fs => simp [commonDirPair, hl, hl2] at hpe
    | dir ces =>
      simp [commonDirPair, hl, hl2] at hpe
      have hwfc : wfEntriesB fuel ces = true := by
        have := hall (n2, FTree.dir ces) he
        simpa using this
      rw [← hpe]
      exact compare_dirs_self fuel ces hwfc
  refine ⟨?_, ?_, ?_⟩
  · show compare_dirs (fuel + 1) es (es ++ [(n, FTree.file ls)]) = _
    simp only [compare_dirs]
    rw [h_lo, h_ro, h_cc]
    rw [foldl_addMetrics_zero (es.filterMap (commonDirPair (es ++ [(n, FTree.file ls)])))
      _ (fun p => compare_dirs fuel p.1 p.2) h_sub]
    simp [count_unique, entryLines]
  · have h_fp2 : (es ++ [(n, FTree.file ls)]).filterMap (commonFilePair es) =
        es.filterMap (fun e =>
          match e.2 with
          | FTree.file fs => some (fs, fs)
          | FTree.dir _ => none) := by
      rw [List.filterMap_append]
      have hone : ([(n, FTree.file ls)] : List (String × FTree)).filterMap
          (commonFilePair es) = [] := by
        simp [commonFilePair, lookupTree_eq_none hn]
      rw [hone, List.append_nil]
      apply List.filterMap_congr
      intro e he
      obtain ⟨n2, t⟩ := e
      have hl2 : lookupTree n2 es = some t := lookup_self hnodup he
      cases t with
      | file fs => simp [commonFilePair, hl2]
      | dir ces => simp [commonFilePair, hl2]
    have h_cc2 : count_common
        ((es ++ [(n, FTree.file ls)]).filterMap (commonFilePair es)) = (0, 0, 0) := by
      rw [h_fp2]
      exact count_common_self _ h_self
    have h_sub2 : ∀ p ∈ (es ++ [(n, FTree.file ls)]).filterMap (commonDirPair es),
        compare_dirs fuel p.1 p.2 = zeroMetrics := by
      intro p hp
      rw [List.filterMap_append] at hp
      rcases List.mem_append.mp hp with h1 | h1
      · obtain ⟨e, he, hpe⟩ := List.mem_filterMap.mp h1
        obtain ⟨n2, t⟩ := e
        have hl2 : lookupTree n2 es = some t := lookup_self hnodup he
        cases t with
        | file fs => simp [commonDirPair, hl2] at hpe
        | dir ces =>
          simp [commonDirPair, hl2] at hpe
          have hwfc : wfEntriesB fuel ces = true := by
            have := hall (n2, FTree.dir ces) he
            simpa using this
          rw [← hpe]
          exact compare_dirs_self fuel ces hwfc
      · simp [commonDirPair] at h1
    show compare_dirs (fuel + 1) (es ++ [(n, FTree.file ls)]) es = _
    simp only [compare_dirs]
    rw [h_ro, h_lo, h_cc2]
    rw [foldl_addMetrics_zero ((es ++ [(n, FTree.file ls)]).filterMap (commonDirPair es))
      _ (fun p => compare_dirs fuel p.1 p.2) h_sub2]
    simp [count_unique, entryLines]
  · intro es2
    exact ⟨rfl, count_unique_snd es2⟩

theorem claim_C9_unique_file_witness :
    (wfEntriesB 2 wTree = true ∧ "new.txt" ∉ namesOf wTree) ∧
    compare_dirs 2 wTree (wTree ++ [("new.txt", FTree.file ["1\n", "2\n", "3\n"])]) =
      ⟨0, 1, 0, 0, 3, 0, 0⟩ ∧
    compare_dirs 2 (wTree ++ [("new.txt", FTree.file ["1\n", "2\n", "3\n"])]) wTree =
      ⟨1, 0, 0, 3, 0, 0, 0⟩ ∧
    (count_unique wTree).1 = wTree.length ∧
    (count_unique wTree).2 = (wTree.map entryLines).sum :=
  ⟨⟨by decide, by decide⟩,
   (claim_C9_unique_file 1 wTree "new.txt" ["1\n", "2\n", "3\n"]
     (by decide) (by decide)).1,
   (claim_C9_unique_file 1 wTree "new.txt" ["1\n", "2\n", "3\n"]
     (by decide) (by decide)).2.1,
   ((claim_C9_unique_file 1 wTree "new.txt" ["1\n", "2\n", "3\n"]
     (by decide) (by decide)).2.2 wTree).1,
   ((claim_C9_unique_file 1 wTree "new.txt" ["1\n", "2\n", "3\n"]
     (by decide) (by decide)).2.2 wTree).2⟩
